import Mathlib

/-! PatchMatch (`main.cpp`): a shallow embedding and its properties.

The C++ program computes a nearest-neighbour field between a source image
(`image0`) and a target image (`image1`).  The embedding below follows
`struct PatchMatcher` member by member:

* Eigen matrices become `Image`: the two dimensions and a flat column-major
  buffer.  An access outside `[0, rows) × [0, cols)` is undefined behaviour in
  C++ and is the error value `none` here, so every operation lives in `Option`.
* The template parameter `Radius` is the explicit argument `R`, the channel
  count of `Pixel<uint8_t, N>` is the parameter `N`.
* Coordinates are mathematical integers: they are bounded by the image sizes,
  which as decoded by stb_image stay far below `2^31`.  The `int` accumulator
  of `distance` is the one place where the width matters; it wraps on 32 bits
  (`wrapInt`).
* The engine `std::mt19937_64` is a stream of raw outputs, and
  `std::uniform_int_distribution` maps the next raw output into its closed
  interval; constructing a distribution with `a > b` violates its precondition
  and is `none`.
* A freshly allocated Eigen matrix is not initialised: the constructor and the
  rendering loop take the indeterminate contents of the new grids as arguments.
* The decoder and encoder of stb_image are external: `loadImage` takes what
  `stbi_load` hands back, `saveImage` gives what is handed to `stbi_write_png`.
-/

namespace PatchMatch

/-! ## Machine integers -/

/-- Value stored in a C++ `int` for the mathematical result `z` (two's complement, 32 bits). -/
def wrapInt (z : Int) : Int := (z + 2147483648) % 4294967296 - 2147483648

/-! ## Images -/

/-- Eigen `Matrix<T, Dynamic, Dynamic>`: `rows()`, `cols()` and the column-major buffer `data()`. -/
structure Image (α : Type) where
  rows : Nat
  cols : Nat
  data : List α

namespace Image

variable {α : Type}

/-- Position of element `(x, y)` in the column-major buffer. -/
def index (img : Image α) (x y : Int) : Nat := (x + y * (img.rows : Int)).toNat

/-- Read access `img(x, y)`; `none` when `(x, y)` is outside the matrix. -/
def coeff (img : Image α) (x y : Int) : Option α :=
  if 0 ≤ x ∧ x < (img.rows : Int) ∧ 0 ≤ y ∧ y < (img.cols : Int) then
    img.data[img.index x y]?
  else none

/-- Write access `img(x, y) = v`; `none` when `(x, y)` is outside the matrix. -/
def setCoeff (img : Image α) (x y : Int) (v : α) : Option (Image α) :=
  if 0 ≤ x ∧ x < (img.rows : Int) ∧ 0 ≤ y ∧ y < (img.cols : Int)
      ∧ img.index x y < img.data.length then
    some { img with data := img.data.set (img.index x y) v }
  else none

/-- The buffer holds exactly `rows * cols` elements. -/
def WF (img : Image α) : Prop := img.data.length = img.rows * img.cols

/-- A matrix of the given size whose buffer holds the indeterminate values `junk`. -/
def fresh (rows cols : Nat) (junk : Nat → α) : Image α :=
  { rows := rows, cols := cols, data := (List.range (rows * cols)).map junk }

end Image

/-- The type `Pixel<uint8_t, N>`: `N` channels of 8-bit unsigned values. -/
abbrev Pixel (N : Nat) : Type := Fin N → Fin 256

/-- The conversion `v.template cast<int>()`. -/
def castInt {N : Nat} (v : Pixel N) : Fin N → Int := fun c => ((v c).val : Int)

/-- Eigen `squaredNorm()` of an `int` vector: the sum of the squares of its coefficients
(a vector of differences of 8-bit values, so the sum is exact whenever `N * 255^2 < 2^31`). -/
def squaredNorm {N : Nat} (v : Fin N → Int) : Int :=
  ((List.finRange N).map (fun c => v c * v c)).sum

/-! ## Random numbers -/

/-- The engine `rng`: the stream of its future raw outputs. -/
abbrev Rng : Type := Nat → Nat

/-- A `std::uniform_int_distribution<int>` over the closed interval `[a, b]`. -/
structure UniformInt where
  a : Int
  b : Int

namespace UniformInt

/-- Construction of the distribution; the standard requires `a ≤ b`. -/
def new (a b : Int) : Option UniformInt := if a ≤ b then some ⟨a, b⟩ else none

/-- One call `dist(rng)`: a value of `[a, b]` chosen by the next raw output, and the advanced engine. -/
def draw (d : UniformInt) (g : Rng) : Int × Rng :=
  (d.a + ((g 0 : Nat) : Int) % (d.b - d.a + 1), fun k => g (k + 1))

end UniformInt

/-! ## The matcher -/

/-- The data members of `struct PatchMatcher`. -/
structure PatchMatcher (N : Nat) where
  image0 : Image (Pixel N)
  image1 : Image (Pixel N)
  nnf : Image (Int × Int)
  score : Image Int
  rng : Rng

/-- The values `lo, lo+1, ..., hi-1` of a loop `for (i = lo; i < hi; ++i)`. -/
def forRange (lo hi : Int) : List Int :=
  (List.range (hi - lo).toNat).map (fun (i : Nat) => lo + (i : Int))

variable {N : Nat}

/-- One pass of the inner loop body of `distance` (lines 42-44). -/
def distanceStep (pm : PatchMatcher N) (x0 y0 x1 y1 dy : Int) (s dx : Int) : Option Int := do
  let v0 ← pm.image0.coeff (x0 + dx) (y0 + dy)
  let v1 ← pm.image1.coeff (x1 + dx) (y1 + dy)
  pure (wrapInt (s + squaredNorm (fun c => castInt v0 c - castInt v1 c)))

/-- Member `PatchMatcher::distance` (lines 38-48). -/
def distance (R : Nat) (pm : PatchMatcher N) (x0 y0 x1 y1 : Int) : Option Int :=
  (forRange (-(R : Int)) ((R : Int) + 1)).foldlM
    (fun s dy => (forRange (-(R : Int)) ((R : Int) + 1)).foldlM
      (distanceStep pm x0 y0 x1 y1 dy) s) 0

/-- The inner loop body of `distance` with the accumulation checked: `none` as soon as the
new value of `s` is not representable in a 32-bit `int`. -/
def distanceStepChecked (pm : PatchMatcher N) (x0 y0 x1 y1 dy : Int) (s dx : Int) :
    Option Int := do
  let v0 ← pm.image0.coeff (x0 + dx) (y0 + dy)
  let v1 ← pm.image1.coeff (x1 + dx) (y1 + dy)
  let t := s + squaredNorm (fun c => castInt v0 c - castInt v1 c)
  if -2147483648 ≤ t ∧ t < 2147483648 then pure t else none

/-- The loops of `distance` run with checked arithmetic: the result of `distance` when no
accumulation overflows, `none` otherwise. -/
def distanceChecked (R : Nat) (pm : PatchMatcher N) (x0 y0 x1 y1 : Int) : Option Int :=
  (forRange (-(R : Int)) ((R : Int) + 1)).foldlM
    (fun s dy => (forRange (-(R : Int)) ((R : Int) + 1)).foldlM
      (distanceStepChecked pm x0 y0 x1 y1 dy) s) 0

/-- Member `PatchMatcher::update` (lines 50-60). -/
def update (R : Nat) (pm : PatchMatcher N) (x y x0 y0 : Int) : Option (PatchMatcher N) :=
  if (R : Int) ≤ x0 ∧ x0 < (pm.image1.rows : Int) - R ∧
      (R : Int) ≤ y0 ∧ y0 < (pm.image1.cols : Int) - R then do
    let d ← distance R pm x y x0 y0
    let sc ← pm.score.coeff x y
    if d < sc then do
      let nnf1 ← pm.nnf.setCoeff x y (x0, y0)
      let score1 ← pm.score.setCoeff x y d
      pure { pm with nnf := nnf1, score := score1 }
    else pure pm
  else pure pm

/-- Member `PatchMatcher::propagate<D>` (lines 62-71). -/
def propagate (R : Nat) (D : Int) (pm : PatchMatcher N) (x y : Int) : Option (PatchMatcher N) := do
  let n0 ← pm.nnf.coeff (x + D) y
  let pm1 ← update R pm x y (n0.1 - D) n0.2
  let n1 ← pm1.nnf.coeff x (y + D)
  update R pm1 x y n1.1 (n1.2 - D)

/-- The body of the `while` loop of `search` for the radius `r` (lines 78-81). -/
def searchRound (R : Nat) (x y x0 y0 : Int) (pm : PatchMatcher N) (r : Nat) :
    Option (PatchMatcher N) := do
  let dist ← UniformInt.new (-(r : Int)) (r : Int)
  let d1 := dist.draw pm.rng
  let d2 := dist.draw d1.2
  update R { pm with rng := d2.2 } x y (d1.1 + x0) (d2.1 + y0)

/-- The loop `while (r >= 1) { ...; r >>= 1; }` of `search`, at most `fuel` rounds. -/
def searchLoop (R : Nat) (x y x0 y0 : Int) :
    Nat → Nat → PatchMatcher N → Option (PatchMatcher N)
  | 0, r, pm => if 1 ≤ r then none else some pm
  | fuel + 1, r, pm =>
    if 1 ≤ r then
      (searchRound R x y x0 y0 pm r).bind (searchLoop R x y x0 y0 fuel (r >>> 1))
    else some pm

/-- Member `PatchMatcher::search` (lines 73-84).  The loop halves `r`, so `r` rounds of fuel
are never used up (`searchLoop_total`, `searchLoop_eq_rounds`). -/
def search (R : Nat) (pm : PatchMatcher N) (x y : Int) : Option (PatchMatcher N) := do
  let n ← pm.nnf.coeff x y
  searchLoop R x y n.1 n.2 (max pm.image1.rows pm.image1.cols)
    (max pm.image1.rows pm.image1.cols) pm

/-- The body of the sweeps of `iterate`: `propagate<D>( x, y ); search( x, y );`. -/
def visit (R : Nat) (D : Int) (x y : Int) (pm : PatchMatcher N) : Option (PatchMatcher N) :=
  (propagate R D pm x y).bind (fun pm1 => search R pm1 x y)

/-- The forward sweep of `iterate` (lines 87-92). -/
def sweepForward (R : Nat) (pm : PatchMatcher N) : Option (PatchMatcher N) :=
  (forRange R ((pm.image0.cols : Int) - R)).foldlM
    (fun p y => (forRange R ((pm.image0.rows : Int) - R)).foldlM
      (fun q x => visit R (-1) x y q) p) pm

/-- The backward sweep of `iterate` (lines 93-98). -/
def sweepBackward (R : Nat) (pm : PatchMatcher N) : Option (PatchMatcher N) :=
  (forRange R ((pm.image0.cols : Int) - R)).reverse.foldlM
    (fun p y => (forRange R ((pm.image0.rows : Int) - R)).reverse.foldlM
      (fun q x => visit R 1 x y q) p) pm

/-- Member `PatchMatcher::iterate` (lines 86-99). -/
def iterate (R : Nat) (pm : PatchMatcher N) : Option (PatchMatcher N) :=
  (sweepForward R pm).bind (sweepBackward R)

/-- The body of the constructor's loops (lines 31-33). -/
def initPixel (R : Nat) (dist0 dist1 : UniformInt) (x y : Int) (pm : PatchMatcher N) :
    Option (PatchMatcher N) := do
  let e0 ← pm.nnf.coeff x y
  let d0 := dist0.draw pm.rng
  let nnf1 ← pm.nnf.setCoeff x y (d0.1, e0.2)
  let e1 ← nnf1.coeff x y
  let d1 := dist1.draw d0.2
  let nnf2 ← nnf1.setCoeff x y (e1.1, d1.1)
  let e2 ← nnf2.coeff x y
  let d ← distance R pm x y e2.1 e2.2
  let score1 ← pm.score.setCoeff x y d
  pure { pm with nnf := nnf2, score := score1, rng := d1.2 }

/-- The state after the member initialisers (lines 22-25): both grids allocated with
indeterminate contents. -/
def allocate (img0 img1 : Image (Pixel N)) (junkNnf : Nat → Int × Int)
    (junkScore : Nat → Int) (g : Rng) : PatchMatcher N :=
  { image0 := img0, image1 := img1,
    nnf := Image.fresh img0.rows img0.cols junkNnf,
    score := Image.fresh img0.rows img0.cols junkScore,
    rng := g }

/-- The constructor `PatchMatcher::PatchMatcher` (lines 21-36). -/
def construct (R : Nat) (img0 img1 : Image (Pixel N)) (junkNnf : Nat → Int × Int)
    (junkScore : Nat → Int) (g : Rng) : Option (PatchMatcher N) := do
  let dist0 ← UniformInt.new R ((img1.rows : Int) - R - 1)
  let dist1 ← UniformInt.new R ((img1.cols : Int) - R - 1)
  (forRange R ((img0.cols : Int) - R)).foldlM
    (fun p y => (forRange R ((img0.rows : Int) - R)).foldlM
      (fun q x => initPixel R dist0 dist1 x y q) p)
    (allocate img0 img1 junkNnf junkScore g)

/-- The rendering loop body of `main` (line 146). -/
def renderPixel (pm : PatchMatcher N) (src1 : Image (Pixel N)) (x y : Int)
    (dst : Image (Pixel N)) : Option (Image (Pixel N)) := do
  let n ← pm.nnf.coeff x y
  let p ← src1.coeff n.1 n.2
  dst.setCoeff x y p

/-- The output image of `main` (lines 141-153); `junk` is the indeterminate content of the
freshly allocated `dst`. -/
def render (pm : PatchMatcher N) (src1 : Image (Pixel N)) (junk : Nat → Pixel N) :
    Option (Image (Pixel N)) :=
  (forRange 0 pm.nnf.cols).foldlM
    (fun d y => (forRange 0 pm.nnf.rows).foldlM
      (fun e x => renderPixel pm src1 x y e) d)
    (Image.fresh pm.nnf.rows pm.nnf.cols junk)

/-! ## Image files and `main` -/

/-- What `stbi_load( fn, &x, &y, &n, N )` hands back on success: the width `x`, the height
`y` and the buffer of the `x * y` pixels of the picture in scanline order (pixel of column
`i` and row `j` at position `j * x + i`). -/
structure Decoded (N : Nat) where
  x : Nat
  y : Nat
  buf : List (Pixel N)

/-- The function `loadImage` (lines 109-123) applied to the result of `stbi_load`; a null
buffer (`none`) throws, otherwise the buffer is mapped as an `x` by `y` matrix and copied. -/
def loadImage (decoded : Option (Decoded N)) : Option (Image (Pixel N)) :=
  match decoded with
  | none => none
  | some d => some { rows := d.x, cols := d.y, data := d.buf }

/-- The function `saveImage` (lines 125-130): the width, the height and the tightly packed
buffer handed to `stbi_write_png`. -/
def saveImage (img : Image (Pixel N)) : Decoded N :=
  { x := img.rows, y := img.cols, buf := img.data }

/-- The loop `for( int i = 0; i < n; ++i ) pm.iterate();` of `main` (lines 137-139). -/
def iterateN (R : Nat) : Nat → PatchMatcher N → Option (PatchMatcher N)
  | 0, pm => some pm
  | n + 1, pm => (iterateN R n pm).bind (iterate R)

/-- The function `main` (lines 136-153) on the two decoded images, with the radius and the
number of iterations as arguments: construct the matcher, iterate `n` times, render. -/
def main (R : Nat) (n : Nat) (src0 src1 : Image (Pixel N)) (junkNnf : Nat → Int × Int)
    (junkScore : Nat → Int) (junkDst : Nat → Pixel N) (g : Rng) : Option (Image (Pixel N)) := do
  let pm ← construct R src0 src1 junkNnf junkScore g
  let pm1 ← iterateN R n pm
  render pm1 src1 junkDst

/-! ## Specification-side definitions -/

/-- Total read used in statements: the element at `(x, y)`, a black pixel outside the image. -/
def Image.pix (img : Image (Pixel N)) (x y : Int) : Pixel N :=
  (img.coeff x y).getD (fun _ => 0)

/-- Squared Euclidean distance between two channel vectors, over the integers. -/
def sqDist (a b : Pixel N) : Int :=
  ∑ c : Fin N, (((a c).val : Int) - ((b c).val : Int)) ^ 2

/-- The patch distance as the specification words it: the sum over the window offsets of the
squared Euclidean distance of the two pixels. -/
def specDistance (R : Nat) (img0 img1 : Image (Pixel N)) (x0 y0 x1 y1 : Int) : Int :=
  ∑ dy ∈ Finset.Icc (-(R : Int)) R, ∑ dx ∈ Finset.Icc (-(R : Int)) R,
    sqDist (img0.pix (x0 + dx) (y0 + dy)) (img1.pix (x1 + dx) (y1 + dy))

/-- Sum of the squared pixel distances along one window row. -/
def rowSum (R : Nat) (img0 img1 : Image (Pixel N)) (x0 y0 x1 y1 dy : Int) : Int :=
  ∑ dx ∈ Finset.Icc (-(R : Int)) R,
    sqDist (img0.pix (x0 + dx) (y0 + dy)) (img1.pix (x1 + dx) (y1 + dy))

/-- The two windows of a call `distance(x0, y0, x1, y1)` lie inside the images. -/
def WindowsInside (R : Nat) (pm : PatchMatcher N) (x0 y0 x1 y1 : Int) : Prop :=
  ((R : Int) ≤ x0 ∧ x0 + R < pm.image0.rows ∧ (R : Int) ≤ y0 ∧ y0 + R < pm.image0.cols) ∧
  ((R : Int) ≤ x1 ∧ x1 + R < pm.image1.rows ∧ (R : Int) ≤ y1 ∧ y1 + R < pm.image1.cols)

/-- The pixel `(x, y)` is an interior pixel of the source: the bounds of the loops of the constructor
and of `iterate`. -/
def Interior (R : Nat) (pm : PatchMatcher N) (x y : Int) : Prop :=
  (R : Int) ≤ x ∧ x < (pm.image0.rows : Int) - R ∧ (R : Int) ≤ y ∧ y < (pm.image0.cols : Int) - R

/-- The candidate `(x0, y0)` lies in the margin-excluded interior of the target: the guard of `update`. -/
def InTarget (R : Nat) (pm : PatchMatcher N) (x0 y0 : Int) : Prop :=
  (R : Int) ≤ x0 ∧ x0 < (pm.image1.rows : Int) - R ∧
    (R : Int) ≤ y0 ∧ y0 < (pm.image1.cols : Int) - R

/-- The images are well-formed buffers and both grids have the size of the source. -/
structure PatchMatcher.WF (pm : PatchMatcher N) : Prop where
  image0 : pm.image0.WF
  image1 : pm.image1.WF
  nnf : pm.nnf.WF
  score : pm.score.WF
  nnf_rows : pm.nnf.rows = pm.image0.rows
  nnf_cols : pm.nnf.cols = pm.image0.cols
  score_rows : pm.score.rows = pm.image0.rows
  score_cols : pm.score.cols = pm.image0.cols

/-- The second state has the images and the grid sizes of the first. -/
structure SameFrame (pm pm' : PatchMatcher N) : Prop where
  image0 : pm'.image0 = pm.image0
  image1 : pm'.image1 = pm.image1
  nnf_rows : pm'.nnf.rows = pm.nnf.rows
  nnf_cols : pm'.nnf.cols = pm.nnf.cols
  nnf_len : pm'.nnf.data.length = pm.nnf.data.length
  score_rows : pm'.score.rows = pm.score.rows
  score_cols : pm'.score.cols = pm.score.cols
  score_len : pm'.score.data.length = pm.score.data.length

/-- The state `pm'` is `pm` after a finite sequence of successful `update` calls at pixels
satisfying `A` and of draws from the engine. -/
inductive Steps (R : Nat) (A : Int → Int → Prop) : PatchMatcher N → PatchMatcher N → Prop
  | refl (pm : PatchMatcher N) : Steps R A pm pm
  | update {pm pm1 pm2 : PatchMatcher N} {x y x0 y0 : Int} :
      Steps R A pm pm1 → A x y → update R pm1 x y x0 y0 = some pm2 → Steps R A pm pm2
  | draw {pm pm1 : PatchMatcher N} (g : Rng) :
      Steps R A pm pm1 → Steps R A pm { pm1 with rng := g }

/-- The score stored at `(x, y)` is the distance of the offset stored at `(x, y)`. -/
def ConsistentAt (R : Nat) (pm : PatchMatcher N) (x y : Int) : Prop :=
  ∃ n sc, pm.nnf.coeff x y = some n ∧ pm.score.coeff x y = some sc ∧
    distance R pm x y n.1 n.2 = some sc

/-- The offset stored at `(x, y)` lies in the margin-excluded interior of the target. -/
def ValidAt (R : Nat) (pm : PatchMatcher N) (x y : Int) : Prop :=
  ∃ n, pm.nnf.coeff x y = some n ∧ InTarget R pm n.1 n.2

/-- The score at every pixel of `pm'` is at most the score at that pixel of `pm`. -/
def ScoreLE (pm pm' : PatchMatcher N) : Prop :=
  ∀ x y sc, pm.score.coeff x y = some sc → ∃ sc', pm'.score.coeff x y = some sc' ∧ sc' ≤ sc

/-- Outside the pixels `A` the two states store the same offsets and scores. -/
def SameOutside (A : Int → Int → Prop) (pm pm' : PatchMatcher N) : Prop :=
  ∀ x y, ¬ A x y →
    pm'.nnf.coeff x y = pm.nnf.coeff x y ∧ pm'.score.coeff x y = pm.score.coeff x y

/-- The states the program can be in: the result of the constructor, followed by any calls
of `update`, `propagate<±1>`, `search` and `iterate`. -/
inductive Reachable (R : Nat) : PatchMatcher N → Prop
  | construct {img0 img1 : Image (Pixel N)} {junkNnf : Nat → Int × Int} {junkScore : Nat → Int}
      {g : Rng} {pm : PatchMatcher N} :
      img0.WF → img1.WF →
      construct R img0 img1 junkNnf junkScore g = some pm → Reachable R pm
  | update {pm pm' : PatchMatcher N} {x y x0 y0 : Int} :
      Reachable R pm → update R pm x y x0 y0 = some pm' → Reachable R pm'
  | propagate {pm pm' : PatchMatcher N} {D x y : Int} :
      Reachable R pm → propagate R D pm x y = some pm' → Reachable R pm'
  | search {pm pm' : PatchMatcher N} {x y : Int} :
      Reachable R pm → search R pm x y = some pm' → Reachable R pm'
  | iterate {pm pm' : PatchMatcher N} :
      Reachable R pm → iterate R pm = some pm' → Reachable R pm'

/-- The score kept at `(x, y)` after the candidate `c` has been proposed against the stored
score `sc`: the smaller of `sc` and the candidate's distance when the candidate lies in the
target interior, `sc` otherwise. -/
def bestOf (R : Nat) (pm : PatchMatcher N) (x y : Int) (sc : Int) (c : Int × Int) : Int :=
  if (R : Int) ≤ c.1 ∧ c.1 < (pm.image1.rows : Int) - R ∧
      (R : Int) ≤ c.2 ∧ c.2 < (pm.image1.cols : Int) - R then
    match distance R pm x y c.1 c.2 with
    | some d => min sc d
    | none => sc
  else sc

/-- The radii of the rounds of `search` started with `r = M`: `M >> 0, M >> 1, ...`,
`⌊log₂ M⌋ + 1` of them. -/
def searchRadii (M : Nat) : List Nat :=
  (List.range (Nat.log2 M + 1)).map (fun i => M >>> i)

/-- A three-channel pixel with the value `v mod 256` in every channel. -/
def gray (v : Nat) : Pixel 3 := fun _ => Fin.ofNat v

/-- A 7 × 7 source image. -/
def exSource : Image (Pixel 3) :=
  { rows := 7, cols := 7, data := (List.range 49).map (fun i => gray (i * 5)) }

/-- An 8 × 7 target image whose pixel `(0, 0)` has value 200. -/
def exTarget : Image (Pixel 3) :=
  { rows := 8, cols := 7, data := (List.range 56).map (fun i => gray (200 + i * 3)) }

/-- A stream of raw engine outputs. -/
def exRng : Rng := fun k => 3 * k + 1

/-- The allocated, not yet initialised matcher on the example images; the indeterminate
scores are `INT_MAX`. -/
def exAlloc : PatchMatcher 3 :=
  allocate exSource exTarget (fun _ => (0, 0)) (fun _ => 2147483647) exRng

/-- The matcher constructed on the example images (radius 3). -/
def exMatcher : PatchMatcher 3 :=
  (construct 3 exSource exTarget (fun _ => (0, 0)) (fun _ => 2147483647) exRng).getD exAlloc

/-- A 2 × 2 source image, too small for a radius of 3. -/
def tinySource : Image (Pixel 3) :=
  { rows := 2, cols := 2, data := [gray 10, gray 20, gray 30, gray 40] }

/-- The allocated matcher on the example images whose indeterminate scores read as 0. -/
def exZero : PatchMatcher 3 :=
  allocate exSource exTarget (fun _ => (0, 0)) (fun _ => 0) exRng

/-- The allocated matcher with the example target as both images, in which every entry of the
field holds its own coordinate. -/
def exIdentity : PatchMatcher 3 :=
  allocate exTarget exTarget (fun i => (((i % 8 : Nat) : Int), ((i / 8 : Nat) : Int)))
    (fun _ => 2147483647) exRng

/-- A decoded picture of width 3 and height 2 with a marker at column 2 of row 0. -/
def exDecoded : Decoded 3 :=
  { x := 3, y := 2, buf := [gray 0, gray 0, gray 255, gray 0, gray 0, gray 0] }

/-- A 12 × 7 target image with varied pixels. -/
def wideTarget : Image (Pixel 3) :=
  { rows := 12, cols := 7, data := (List.range 84).map (fun i => gray (i * i * 7 + i * 3)) }

/-- A 7 × 7 source image: the columns 5 to 11 of `wideTarget`, so that the patch of its only
interior pixel `(3, 3)` matches the target exactly at `(8, 3)`. -/
def cropSource : Image (Pixel 3) :=
  { rows := 7, cols := 7,
    data := (List.range 49).map (fun i =>
      gray ((i % 7 + 5 + 12 * (i / 7)) * (i % 7 + 5 + 12 * (i / 7)) * 7
        + (i % 7 + 5 + 12 * (i / 7)) * 3)) }

/-- A second stream of raw engine outputs. -/
def stepRng : Rng := fun k => k + 3

/-- An 8 × 7 image with the same value at every pixel. -/
def uniformImage : Image (Pixel 3) :=
  { rows := 8, cols := 7, data := (List.range 56).map (fun _ => gray 90) }

/-- The matcher constructed with `uniformImage` as source and as target (radius 3). -/
def uniformMatcher : PatchMatcher 3 :=
  (construct 3 uniformImage uniformImage (fun _ => (0, 0)) (fun _ => 0) exRng).getD
    (allocate uniformImage uniformImage (fun _ => (0, 0)) (fun _ => 0) exRng)

/-- The red pixel `(255, 0, 0)`. -/
def red : Pixel 3 := fun c => if c.val = 0 then 255 else 0

/-- The source of the scenario: 10 × 10, uniformly gray. -/
def scenarioSource : Image (Pixel 3) :=
  { rows := 10, cols := 10, data := (List.range 100).map (fun _ => gray 128) }

/-- The target of the scenario: the source with a red pixel at `(5, 5)`, that is at position
`5 + 5 * 10` of the buffer. -/
def scenarioTarget : Image (Pixel 3) :=
  { rows := 10, cols := 10,
    data := (List.range 100).map (fun i => if i = 55 then red else gray 128) }

/-- The matcher constructed on the scenario (radius 1). -/
def scenarioMatcher : PatchMatcher 3 :=
  (construct 1 scenarioSource scenarioTarget (fun _ => (0, 0)) (fun _ => 0) exRng).getD
    (allocate scenarioSource scenarioTarget (fun _ => (0, 0)) (fun _ => 0) exRng)

/-! # Theorems -/

/-! ## Loops -/

theorem mem_forRange {lo hi x : Int} : x ∈ forRange lo hi ↔ lo ≤ x ∧ x < hi := by
  unfold forRange
  simp only [List.mem_map, List.mem_range]
  constructor
  · rintro ⟨i, hi', rfl⟩
    omega
  · rintro ⟨h1, h2⟩
    exact ⟨(x - lo).toNat, by omega, by omega⟩

theorem nodup_forRange (lo hi : Int) : (forRange lo hi).Nodup := by
  unfold forRange
  apply List.Nodup.map _ (List.nodup_range _)
  intro a b h
  simpa using h

theorem sum_forRange (lo hi : Int) (f : Int → Int) :
    ((forRange lo hi).map f).sum = ∑ i ∈ Finset.Ico lo hi, f i := by
  rw [← List.sum_toFinset f (nodup_forRange lo hi)]
  apply Finset.sum_congr _ (fun _ _ => rfl)
  ext i
  simp [mem_forRange]

theorem sum_offsets (R : Nat) (f : Int → Int) :
    ((forRange (-(R : Int)) ((R : Int) + 1)).map f).sum = ∑ i ∈ Finset.Icc (-(R : Int)) R, f i := by
  rw [sum_forRange]
  apply Finset.sum_congr _ (fun _ _ => rfl)
  ext i
  simp only [Finset.mem_Ico, Finset.mem_Icc]
  omega

/-- An invariant of the loop body is an invariant of the loop. -/
theorem foldlM_inv {σ α : Type} (P : σ → Prop) (f : σ → α → Option σ) (l : List α)
    (hstep : ∀ s a s', a ∈ l → P s → f s a = some s' → P s') :
    ∀ s s', P s → l.foldlM f s = some s' → P s' := by
  induction l with
  | nil =>
    intro s s' hs h
    simp only [List.foldlM_nil, pure, Option.some.injEq] at h
    exact h ▸ hs
  | cons a l ih =>
    intro s s' hs h
    simp only [List.foldlM_cons, bind, Option.bind_eq_some] at h
    obtain ⟨s1, h1, h2⟩ := h
    exact ih (fun s a s' ha => hstep s a s' (List.mem_cons_of_mem _ ha)) s1 s'
      (hstep s a s1 (List.mem_cons_self _ _) hs h1) h2

/-- A loop whose body never fails under an invariant never fails. -/
theorem foldlM_total {σ α : Type} (P : σ → Prop) (f : σ → α → Option σ) (l : List α)
    (hstep : ∀ s a, a ∈ l → P s → ∃ s', f s a = some s' ∧ P s') :
    ∀ s, P s → ∃ s', l.foldlM f s = some s' ∧ P s' := by
  induction l with
  | nil =>
    intro s hs
    exact ⟨s, rfl, hs⟩
  | cons a l ih =>
    intro s hs
    obtain ⟨s1, h1, hs1⟩ := hstep s a (List.mem_cons_self _ _) hs
    obtain ⟨s2, h2, hs2⟩ := ih (fun s a ha => hstep s a (List.mem_cons_of_mem _ ha)) s1 hs1
    refine ⟨s2, ?_, hs2⟩
    simp only [List.foldlM_cons, bind, h1, Option.some_bind, h2]

/-! ## Images -/

theorem wrapInt_of_fits {z : Int} (h0 : 0 ≤ z) (h1 : z < 2147483648) : wrapInt z = z := by
  unfold wrapInt
  omega

theorem index_lt {rows cols : Nat} {x y : Int} (hx0 : 0 ≤ x) (hx : x < rows) (hy0 : 0 ≤ y)
    (hy : y < cols) : (x + y * (rows : Int)).toNat < rows * cols := by
  have h1 : y * (rows : Int) ≤ ((cols : Int) - 1) * rows :=
    mul_le_mul_of_nonneg_right (by omega) (by omega)
  have h2 : 0 ≤ y * (rows : Int) := mul_nonneg hy0 (by omega)
  have h3 : x + y * (rows : Int) < (rows : Int) * cols := by nlinarith
  have h4 : ((rows * cols : Nat) : Int) = (rows : Int) * cols := by push_cast; ring
  omega

theorem index_inj {rows : Nat} {x y x' y' : Int} (hx0 : 0 ≤ x) (hx : x < rows)
    (hx0' : 0 ≤ x') (hx' : x' < rows) (hy0 : 0 ≤ y) (hy0' : 0 ≤ y')
    (h : (x + y * (rows : Int)).toNat = (x' + y' * (rows : Int)).toNat) : x = x' ∧ y = y' := by
  have h2 : 0 ≤ y * (rows : Int) := mul_nonneg hy0 (by omega)
  have h2' : 0 ≤ y' * (rows : Int) := mul_nonneg hy0' (by omega)
  have h3 : x + y * (rows : Int) = x' + y' * (rows : Int) := by omega
  have hy : y = y' := by
    rcases lt_trichotomy y y' with hlt | heq | hgt
    · have : (y + 1) * (rows : Int) ≤ y' * rows := mul_le_mul_of_nonneg_right (by omega) (by omega)
      nlinarith
    · exact heq
    · have : (y' + 1) * (rows : Int) ≤ y * rows := mul_le_mul_of_nonneg_right (by omega) (by omega)
      nlinarith
  subst hy
  exact ⟨by omega, rfl⟩

namespace Image

variable {α : Type}

theorem coeff_of_inRange {img : Image α} (wf : img.WF) {x y : Int} (hx0 : 0 ≤ x)
    (hx : x < img.rows) (hy0 : 0 ≤ y) (hy : y < img.cols) : ∃ v, img.coeff x y = some v := by
  have hlt : img.index x y < img.data.length := by
    rw [wf]; exact index_lt hx0 hx hy0 hy
  refine ⟨img.data[img.index x y], ?_⟩
  unfold coeff
  rw [if_pos ⟨hx0, hx, hy0, hy⟩]
  exact List.getElem?_eq_getElem hlt

theorem inRange_of_coeff {img : Image α} {x y : Int} {v : α} (h : img.coeff x y = some v) :
    0 ≤ x ∧ x < img.rows ∧ 0 ≤ y ∧ y < img.cols := by
  unfold coeff at h
  by_contra hc
  rw [if_neg hc] at h
  exact Option.noConfusion h

theorem setCoeff_of_inRange {img : Image α} (wf : img.WF) {x y : Int} (v : α) (hx0 : 0 ≤ x)
    (hx : x < img.rows) (hy0 : 0 ≤ y) (hy : y < img.cols) :
    ∃ img', img.setCoeff x y v = some img' := by
  have hlt : img.index x y < img.data.length := by
    rw [wf]; exact index_lt hx0 hx hy0 hy
  unfold setCoeff
  rw [if_pos ⟨hx0, hx, hy0, hy, hlt⟩]
  exact ⟨_, rfl⟩

theorem setCoeff_shape {img img' : Image α} {x y : Int} {v : α}
    (h : img.setCoeff x y v = some img') :
    img'.rows = img.rows ∧ img'.cols = img.cols ∧ img'.data.length = img.data.length := by
  unfold setCoeff at h
  split at h
  · simp only [Option.some.injEq] at h
    subst h
    simp
  · exact Option.noConfusion h

theorem setCoeff_wf {img img' : Image α} {x y : Int} {v : α}
    (h : img.setCoeff x y v = some img') (wf : img.WF) : img'.WF := by
  obtain ⟨h1, h2, h3⟩ := setCoeff_shape h
  unfold WF at *
  rw [h1, h2, h3, wf]

theorem coeff_setCoeff_self {img img' : Image α} {x y : Int} {v : α}
    (h : img.setCoeff x y v = some img') : img'.coeff x y = some v := by
  unfold setCoeff at h
  split at h
  · rename_i hc
    simp only [Option.some.injEq] at h
    subst h
    unfold coeff
    simp only [index]
    rw [if_pos ⟨hc.1, hc.2.1, hc.2.2.1, hc.2.2.2.1⟩]
    exact List.getElem?_set_self hc.2.2.2.2
  · exact Option.noConfusion h

theorem coeff_setCoeff_ne {img img' : Image α} {x y x' y' : Int} {v : α}
    (h : img.setCoeff x y v = some img') (hne : ¬ (x' = x ∧ y' = y)) :
    img'.coeff x' y' = img.coeff x' y' := by
  unfold setCoeff at h
  split at h
  · rename_i hc
    simp only [Option.some.injEq] at h
    subst h
    unfold coeff
    simp only [index]
    by_cases hr : 0 ≤ x' ∧ x' < (img.rows : Int) ∧ 0 ≤ y' ∧ y' < (img.cols : Int)
    · rw [if_pos hr, if_pos hr]
      apply List.getElem?_set_ne
      intro hidx
      exact hne (index_inj hr.1 hr.2.1 hc.1 hc.2.1 hr.2.2.1 hc.2.2.1 hidx.symm)
    · rw [if_neg hr, if_neg hr]
  · exact Option.noConfusion h

end Image

theorem squaredNorm_sub (a b : Pixel N) :
    squaredNorm (fun c => castInt a c - castInt b c) = sqDist a b := by
  unfold squaredNorm sqDist castInt
  rw [Fin.sum_univ_def]
  congr 1
  apply List.map_congr_left
  intro c _
  ring

theorem sqDist_nonneg (a b : Pixel N) : 0 ≤ sqDist a b :=
  Finset.sum_nonneg (fun _ _ => sq_nonneg _)

theorem sqDist_le (a b : Pixel N) : sqDist a b ≤ (N : Int) * 65025 := by
  unfold sqDist
  have h : ∀ c ∈ (Finset.univ : Finset (Fin N)),
      (((a c).val : Int) - ((b c).val : Int)) ^ 2 ≤ 65025 := by
    intro c _
    have ha := (a c).isLt
    have hb := (b c).isLt
    have h1 : -255 ≤ ((a c).val : Int) - ((b c).val : Int) := by omega
    have h2 : ((a c).val : Int) - ((b c).val : Int) ≤ 255 := by omega
    nlinarith
  have := Finset.sum_le_card_nsmul _ _ _ h
  simpa using this

theorem card_offsets (R : Nat) : (Finset.Icc (-(R : Int)) R).card = 2 * R + 1 := by
  rw [Int.card_Icc]
  omega

theorem rowSum_nonneg (R : Nat) (img0 img1 : Image (Pixel N)) (x0 y0 x1 y1 dy : Int) :
    0 ≤ rowSum R img0 img1 x0 y0 x1 y1 dy :=
  Finset.sum_nonneg (fun _ _ => sqDist_nonneg _ _)

theorem rowSum_le (R : Nat) (img0 img1 : Image (Pixel N)) (x0 y0 x1 y1 dy : Int) :
    rowSum R img0 img1 x0 y0 x1 y1 dy ≤ (2 * (R : Int) + 1) * ((N : Int) * 65025) := by
  have := Finset.sum_le_card_nsmul (Finset.Icc (-(R : Int)) R)
    (fun dx => sqDist (img0.pix (x0 + dx) (y0 + dy)) (img1.pix (x1 + dx) (y1 + dy)))
    ((N : Int) * 65025) (fun _ _ => sqDist_le _ _)
  rw [card_offsets] at this
  simpa [rowSum] using this

theorem specDistance_nonneg (R : Nat) (img0 img1 : Image (Pixel N)) (x0 y0 x1 y1 : Int) :
    0 ≤ specDistance R img0 img1 x0 y0 x1 y1 :=
  Finset.sum_nonneg (fun _ _ => rowSum_nonneg R img0 img1 x0 y0 x1 y1 _)

theorem specDistance_le (R : Nat) (img0 img1 : Image (Pixel N)) (x0 y0 x1 y1 : Int) :
    specDistance R img0 img1 x0 y0 x1 y1
      ≤ (2 * (R : Int) + 1) * ((2 * (R : Int) + 1) * ((N : Int) * 65025)) := by
  have := Finset.sum_le_card_nsmul (Finset.Icc (-(R : Int)) R)
    (fun dy => rowSum R img0 img1 x0 y0 x1 y1 dy)
    ((2 * (R : Int) + 1) * ((N : Int) * 65025)) (fun _ _ => rowSum_le R img0 img1 x0 y0 x1 y1 _)
  rw [card_offsets] at this
  simpa [specDistance, rowSum] using this

/-- The accumulation loop: while the running sum fits in an `int`, folding `step` adds up the
terms `q`. -/
theorem foldlM_accumulate (step : Int → Int → Option Int) (q : Int → Int) (l : List Int)
    (hq : ∀ a ∈ l, 0 ≤ q a)
    (hstep : ∀ a ∈ l, ∀ s, 0 ≤ s → s + q a < 2147483648 → step s a = some (s + q a)) :
    ∀ s, 0 ≤ s → s + (l.map q).sum < 2147483648 →
      l.foldlM step s = some (s + (l.map q).sum) := by
  induction l with
  | nil =>
    intro s _ _
    simp [pure]
  | cons a l ih =>
    intro s hs hfit
    simp only [List.map_cons, List.sum_cons] at hfit ⊢
    have hl : 0 ≤ (l.map q).sum :=
      List.sum_nonneg (by
        intro z hz
        obtain ⟨b, hb, rfl⟩ := List.mem_map.1 hz
        exact hq b (List.mem_cons_of_mem _ hb))
    have ha := hq a (List.mem_cons_self _ _)
    rw [List.foldlM_cons, hstep a (List.mem_cons_self _ _) s hs (by omega)]
    simp only [bind, Option.some_bind]
    rw [ih (fun b hb => hq b (List.mem_cons_of_mem _ hb))
      (fun b hb => hstep b (List.mem_cons_of_mem _ hb)) (s + q a) (by omega) (by omega)]
    congr 1
    ring

theorem distanceStep_eq (pm : PatchMatcher N) (x0 y0 x1 y1 dy dx s : Int) (v0 v1 : Pixel N)
    (h0 : pm.image0.coeff (x0 + dx) (y0 + dy) = some v0)
    (h1 : pm.image1.coeff (x1 + dx) (y1 + dy) = some v1)
    (hs : 0 ≤ s) (hfit : s + sqDist v0 v1 < 2147483648) :
    distanceStep pm x0 y0 x1 y1 dy s dx = some (s + sqDist v0 v1) := by
  unfold distanceStep
  simp only [h0, h1, bind, Option.some_bind, pure, squaredNorm_sub]
  rw [wrapInt_of_fits (add_nonneg hs (sqDist_nonneg _ _)) hfit]

theorem distance_eq_of_fits (R : Nat) (pm : PatchMatcher N) (x0 y0 x1 y1 : Int)
    (hfit : (2 * R + 1) ^ 2 * N * 255 ^ 2 < 2 ^ 31)
    (wf0 : pm.image0.WF) (wf1 : pm.image1.WF) (hin : WindowsInside R pm x0 y0 x1 y1) :
    distance R pm x0 y0 x1 y1 = some (specDistance R pm.image0 pm.image1 x0 y0 x1 y1) := by
  have hle := specDistance_le R pm.image0 pm.image1 x0 y0 x1 y1
  have hbound : (2 * (R : Int) + 1) * ((2 * (R : Int) + 1) * ((N : Int) * 65025)) < 2147483648 := by
    have : (((2 * R + 1) ^ 2 * N * 255 ^ 2 : Nat) : Int) < ((2 ^ 31 : Nat) : Int) :=
      Int.ofNat_lt.2 hfit
    push_cast at this
    nlinarith
  obtain ⟨⟨a1, a2, a3, a4⟩, ⟨b1, b2, b3, b4⟩⟩ := hin
  have hspec : specDistance R pm.image0 pm.image1 x0 y0 x1 y1
      = ((forRange (-(R : Int)) ((R : Int) + 1)).map
          (fun dy => rowSum R pm.image0 pm.image1 x0 y0 x1 y1 dy)).sum := by
    rw [sum_offsets]; rfl
  -- every row sum is below the total
  have hrow_le : ∀ dy ∈ Finset.Icc (-(R : Int)) R,
      rowSum R pm.image0 pm.image1 x0 y0 x1 y1 dy
        ≤ specDistance R pm.image0 pm.image1 x0 y0 x1 y1 := by
    intro dy hdy
    exact Finset.single_le_sum
      (f := fun dy => rowSum R pm.image0 pm.image1 x0 y0 x1 y1 dy)
      (fun _ _ => rowSum_nonneg R pm.image0 pm.image1 x0 y0 x1 y1 _) hdy
  unfold distance
  have key := foldlM_accumulate
    (fun s dy => (forRange (-(R : Int)) ((R : Int) + 1)).foldlM
      (distanceStep pm x0 y0 x1 y1 dy) s)
    (fun dy => rowSum R pm.image0 pm.image1 x0 y0 x1 y1 dy)
    (forRange (-(R : Int)) ((R : Int) + 1))
    (fun _ _ => rowSum_nonneg R pm.image0 pm.image1 x0 y0 x1 y1 _)
    (by
      intro dy hdy s hs hsfit
      have hdy' := mem_forRange.1 hdy
      have hrow : rowSum R pm.image0 pm.image1 x0 y0 x1 y1 dy
          = ((forRange (-(R : Int)) ((R : Int) + 1)).map
              (fun dx => sqDist (pm.image0.pix (x0 + dx) (y0 + dy))
                (pm.image1.pix (x1 + dx) (y1 + dy)))).sum := by
        rw [sum_offsets]; rfl
      beta_reduce at hsfit ⊢
      rw [hrow] at hsfit ⊢
      apply foldlM_accumulate _ _ _ (fun _ _ => sqDist_nonneg _ _) _ s hs hsfit
      intro dx hdx t ht htfit
      have hdx' := mem_forRange.1 hdx
      obtain ⟨v0, hv0⟩ := Image.coeff_of_inRange wf0 (x := x0 + dx) (y := y0 + dy)
        (by omega) (by omega) (by omega) (by omega)
      obtain ⟨v1, hv1⟩ := Image.coeff_of_inRange wf1 (x := x1 + dx) (y := y1 + dy)
        (by omega) (by omega) (by omega) (by omega)
      have p0 : pm.image0.pix (x0 + dx) (y0 + dy) = v0 := by simp [Image.pix, hv0]
      have p1 : pm.image1.pix (x1 + dx) (y1 + dy) = v1 := by simp [Image.pix, hv1]
      simp only [p0, p1] at htfit ⊢
      exact distanceStep_eq pm x0 y0 x1 y1 dy dx t v0 v1 hv0 hv1 ht htfit)
    0 (le_refl _) (by rw [← hspec]; omega)
  rw [key, ← hspec]
  simp

theorem PatchMatcher.WF.withRng {pm : PatchMatcher N} (wf : pm.WF) (g : Rng) :
    PatchMatcher.WF { pm with rng := g } :=
  ⟨wf.image0, wf.image1, wf.nnf, wf.score, wf.nnf_rows, wf.nnf_cols, wf.score_rows,
    wf.score_cols⟩

theorem SameFrame.rfl_frame (pm : PatchMatcher N) : SameFrame pm pm :=
  ⟨rfl, rfl, rfl, rfl, rfl, rfl, rfl, rfl⟩

theorem SameFrame.then {a b c : PatchMatcher N} (h1 : SameFrame a b) (h2 : SameFrame b c) :
    SameFrame a c :=
  ⟨h2.image0.trans h1.image0, h2.image1.trans h1.image1, h2.nnf_rows.trans h1.nnf_rows,
    h2.nnf_cols.trans h1.nnf_cols, h2.nnf_len.trans h1.nnf_len,
    h2.score_rows.trans h1.score_rows, h2.score_cols.trans h1.score_cols,
    h2.score_len.trans h1.score_len⟩

theorem SameFrame.wf {a b : PatchMatcher N} (h : SameFrame a b) (wf : a.WF) : b.WF := by
  obtain ⟨w1, w2, w3, w4, w5, w6, w7, w8⟩ := wf
  obtain ⟨f1, f2, f3, f4, f5, f6, f7, f8⟩ := h
  refine ⟨f1 ▸ w1, f2 ▸ w2, ?_, ?_, ?_, ?_, ?_, ?_⟩
  · unfold Image.WF at *; rw [f5, f3, f4, w3]
  · unfold Image.WF at *; rw [f8, f6, f7, w4]
  · rw [f3, f1, w5]
  · rw [f4, f1, w6]
  · rw [f6, f1, w7]
  · rw [f7, f1, w8]

theorem SameFrame.interior {a b : PatchMatcher N} (h : SameFrame a b) (R : Nat) (x y : Int) :
    Interior R b x y ↔ Interior R a x y := by
  unfold Interior; rw [h.image0]

theorem SameFrame.inTarget {a b : PatchMatcher N} (h : SameFrame a b) (R : Nat) (x y : Int) :
    InTarget R b x y ↔ InTarget R a x y := by
  unfold InTarget; rw [h.image1]

/-! ## `distance` -/

theorem distance_congr (R : Nat) {pm pm' : PatchMatcher N} (h0 : pm'.image0 = pm.image0)
    (h1 : pm'.image1 = pm.image1) (x0 y0 x1 y1 : Int) :
    distance R pm' x0 y0 x1 y1 = distance R pm x0 y0 x1 y1 := by
  unfold distance distanceStep
  rw [h0, h1]

theorem distanceStep_total (pm : PatchMatcher N) (x0 y0 x1 y1 dy dx s : Int)
    (wf0 : pm.image0.WF) (wf1 : pm.image1.WF)
    (a1 : 0 ≤ x0 + dx) (a2 : x0 + dx < pm.image0.rows)
    (a3 : 0 ≤ y0 + dy) (a4 : y0 + dy < pm.image0.cols)
    (b1 : 0 ≤ x1 + dx) (b2 : x1 + dx < pm.image1.rows)
    (b3 : 0 ≤ y1 + dy) (b4 : y1 + dy < pm.image1.cols) :
    ∃ s', distanceStep pm x0 y0 x1 y1 dy s dx = some s' := by
  obtain ⟨v0, hv0⟩ := Image.coeff_of_inRange wf0 a1 a2 a3 a4
  obtain ⟨v1, hv1⟩ := Image.coeff_of_inRange wf1 b1 b2 b3 b4
  unfold distanceStep
  simp only [hv0, hv1, bind, Option.some_bind, pure]
  exact ⟨_, rfl⟩

/-- With both windows inside the images, `distance` reads only existing pixels and returns. -/
theorem distance_total (R : Nat) (pm : PatchMatcher N) (x0 y0 x1 y1 : Int)
    (wf0 : pm.image0.WF) (wf1 : pm.image1.WF) (hin : WindowsInside R pm x0 y0 x1 y1) :
    ∃ d, distance R pm x0 y0 x1 y1 = some d := by
  obtain ⟨⟨a1, a2, a3, a4⟩, ⟨b1, b2, b3, b4⟩⟩ := hin
  unfold distance
  obtain ⟨d, hd, _⟩ := foldlM_total (fun _ => True)
    (fun s dy => (forRange (-(R : Int)) ((R : Int) + 1)).foldlM
      (distanceStep pm x0 y0 x1 y1 dy) s)
    (forRange (-(R : Int)) ((R : Int) + 1))
    (by
      intro s dy hdy _
      have hdy' := mem_forRange.1 hdy
      apply foldlM_total (fun _ => True)
      · intro t dx hdx _
        have hdx' := mem_forRange.1 hdx
        obtain ⟨s', hs'⟩ := distanceStep_total pm x0 y0 x1 y1 dy dx t wf0 wf1
          (by omega) (by omega) (by omega) (by omega) (by omega) (by omega) (by omega) (by omega)
        exact ⟨s', hs', trivial⟩
      · trivial)
    0 trivial
  exact ⟨d, hd⟩

/-! ## `update` -/

/-- The two outcomes of a successful `update`: nothing changes, or the guard holds, the
candidate's distance `d` is strictly below the stored score and both entries of `(x, y)` are
overwritten. -/
theorem update_cases {R : Nat} {pm pm' : PatchMatcher N} {x y x0 y0 : Int}
    (h : update R pm x y x0 y0 = some pm') :
    pm' = pm ∨ (InTarget R pm x0 y0 ∧ ∃ d sc nnf1 score1,
      distance R pm x y x0 y0 = some d ∧ pm.score.coeff x y = some sc ∧ d < sc ∧
      pm.nnf.setCoeff x y (x0, y0) = some nnf1 ∧ pm.score.setCoeff x y d = some score1 ∧
      pm' = { pm with nnf := nnf1, score := score1 }) := by
  unfold update at h
  split at h
  · rename_i hg
    simp only [bind, Option.bind_eq_some] at h
    obtain ⟨d, hd, sc, hsc, h⟩ := h
    split at h
    · rename_i hlt
      simp only [bind, Option.bind_eq_some, pure, Option.some.injEq] at h
      obtain ⟨nnf1, hn, score1, hs, rfl⟩ := h
      exact Or.inr ⟨hg, d, sc, nnf1, score1, hd, hsc, hlt, hn, hs, rfl⟩
    · simp only [pure, Option.some.injEq] at h
      exact Or.inl h.symm
  · simp only [pure, Option.some.injEq] at h
    exact Or.inl h.symm

theorem update_frame {R : Nat} {pm pm' : PatchMatcher N} {x y x0 y0 : Int}
    (h : update R pm x y x0 y0 = some pm') : SameFrame pm pm' := by
  rcases update_cases h with rfl | ⟨_, d, sc, nnf1, score1, _, _, _, hn, hs, rfl⟩
  · exact SameFrame.rfl_frame _
  · obtain ⟨n1, n2, n3⟩ := Image.setCoeff_shape hn
    obtain ⟨s1, s2, s3⟩ := Image.setCoeff_shape hs
    exact ⟨rfl, rfl, n1, n2, n3, s1, s2, s3⟩

theorem update_rng {R : Nat} {pm pm' : PatchMatcher N} {x y x0 y0 : Int}
    (h : update R pm x y x0 y0 = some pm') : pm'.rng = pm.rng := by
  rcases update_cases h with rfl | ⟨_, d, sc, nnf1, score1, _, _, _, hn, hs, rfl⟩ <;> rfl

/-- A call of `update` touches no entry of another pixel. -/
theorem update_other {R : Nat} {pm pm' : PatchMatcher N} {x y x0 y0 : Int}
    (h : update R pm x y x0 y0 = some pm') {x' y' : Int} (hne : ¬ (x' = x ∧ y' = y)) :
    pm'.nnf.coeff x' y' = pm.nnf.coeff x' y' ∧ pm'.score.coeff x' y' = pm.score.coeff x' y' := by
  rcases update_cases h with rfl | ⟨_, d, sc, nnf1, score1, _, _, _, hn, hs, rfl⟩
  · exact ⟨rfl, rfl⟩
  · exact ⟨Image.coeff_setCoeff_ne hn hne, Image.coeff_setCoeff_ne hs hne⟩

/-- At an interior source pixel and a candidate inside the target interior, `update` returns. -/
theorem update_total {R : Nat} {pm : PatchMatcher N} {x y : Int} (x0 y0 : Int) (wf : pm.WF)
    (hxy : Interior R pm x y) : ∃ pm', update R pm x y x0 y0 = some pm' := by
  obtain ⟨a1, a2, a3, a4⟩ := hxy
  unfold update
  split
  · rename_i hg
    obtain ⟨d, hd⟩ := distance_total R pm x y x0 y0 wf.image0 wf.image1
      ⟨⟨a1, by omega, a3, by omega⟩, ⟨hg.1, by omega, hg.2.2.1, by omega⟩⟩
    have r1 : x < (pm.score.rows : Int) := by rw [wf.score_rows]; omega
    have r2 : y < (pm.score.cols : Int) := by rw [wf.score_cols]; omega
    have r3 : x < (pm.nnf.rows : Int) := by rw [wf.nnf_rows]; omega
    have r4 : y < (pm.nnf.cols : Int) := by rw [wf.nnf_cols]; omega
    obtain ⟨sc, hsc⟩ := Image.coeff_of_inRange wf.score (x := x) (y := y) (by omega) r1 (by omega) r2
    obtain ⟨nnf1, hn⟩ := Image.setCoeff_of_inRange wf.nnf (x := x) (y := y) (x0, y0)
      (by omega) r3 (by omega) r4
    obtain ⟨score1, hs⟩ := Image.setCoeff_of_inRange wf.score (x := x) (y := y) d
      (by omega) r1 (by omega) r2
    simp only [hd, hsc, bind, Option.some_bind]
    split
    · simp only [hn, hs, Option.some_bind, pure]
      exact ⟨_, rfl⟩
    · exact ⟨_, rfl⟩
  · exact ⟨_, rfl⟩

/-! ## Every operation is a sequence of `update` calls -/

theorem Steps.append {R : Nat} {A : Int → Int → Prop} {a b c : PatchMatcher N}
    (h1 : Steps R A a b) (h2 : Steps R A b c) : Steps R A a c := by
  induction h2 with
  | refl => exact h1
  | update _ hA hu ih => exact Steps.update ih hA hu
  | draw g _ ih => exact Steps.draw g ih

theorem Steps.frame {R : Nat} {A : Int → Int → Prop} {a b : PatchMatcher N}
    (h : Steps R A a b) : SameFrame a b := by
  induction h with
  | refl => exact SameFrame.rfl_frame _
  | update _ _ hu ih => exact ih.then (update_frame hu)
  | draw g _ ih => exact ih.then ⟨rfl, rfl, rfl, rfl, rfl, rfl, rfl, rfl⟩

theorem Steps.mono {R : Nat} {A B : Int → Int → Prop} (hAB : ∀ x y, A x y → B x y)
    {a b : PatchMatcher N} (h : Steps R A a b) : Steps R B a b := by
  induction h with
  | refl => exact Steps.refl _
  | update _ hA hu ih => exact Steps.update ih (hAB _ _ hA) hu
  | draw g _ ih => exact Steps.draw g ih

theorem propagate_steps {R : Nat} {A : Int → Int → Prop} {D : Int} {pm pm' : PatchMatcher N}
    {x y : Int} (hA : A x y) (h : propagate R D pm x y = some pm') : Steps R A pm pm' := by
  unfold propagate at h
  simp only [bind, Option.bind_eq_some] at h
  obtain ⟨n0, _, pm1, h1, n1, _, h2⟩ := h
  exact Steps.update (Steps.update (Steps.refl _) hA h1) hA h2

theorem searchRound_steps {R : Nat} {A : Int → Int → Prop} {pm pm' : PatchMatcher N}
    {x y x0 y0 : Int} {r : Nat} (hA : A x y) (h : searchRound R x y x0 y0 pm r = some pm') :
    Steps R A pm pm' := by
  unfold searchRound at h
  simp only [bind, Option.bind_eq_some] at h
  obtain ⟨dist, _, h⟩ := h
  exact Steps.update (Steps.draw _ (Steps.refl _)) hA h

theorem searchLoop_steps {R : Nat} {A : Int → Int → Prop} {x y x0 y0 : Int} (hA : A x y)
    (fuel : Nat) : ∀ (r : Nat) (pm pm' : PatchMatcher N),
      searchLoop R x y x0 y0 fuel r pm = some pm' → Steps R A pm pm' := by
  induction fuel with
  | zero =>
    intro r pm pm' h
    unfold searchLoop at h
    split at h
    · exact Option.noConfusion h
    · simp only [Option.some.injEq] at h
      exact h ▸ Steps.refl _
  | succ fuel ih =>
    intro r pm pm' h
    unfold searchLoop at h
    split at h
    · simp only [Option.bind_eq_some] at h
      obtain ⟨pm1, h1, h2⟩ := h
      exact (searchRound_steps hA h1).append (ih _ _ _ h2)
    · simp only [Option.some.injEq] at h
      exact h ▸ Steps.refl _

theorem search_steps {R : Nat} {A : Int → Int → Prop} {pm pm' : PatchMatcher N}
    {x y : Int} (hA : A x y) (h : search R pm x y = some pm') : Steps R A pm pm' := by
  unfold search at h
  simp only [bind, Option.bind_eq_some] at h
  obtain ⟨n, _, h⟩ := h
  exact searchLoop_steps hA _ _ _ _ h

theorem visit_steps {R : Nat} {A : Int → Int → Prop} {D : Int} {pm pm' : PatchMatcher N}
    {x y : Int} (hA : A x y) (h : visit R D x y pm = some pm') : Steps R A pm pm' := by
  unfold visit at h
  simp only [Option.bind_eq_some] at h
  obtain ⟨pm1, h1, h2⟩ := h
  exact (propagate_steps hA h1).append (search_steps hA h2)

/-- A sweep over the pixels `xs × ys`, in any order, is a sequence of updates at those pixels. -/
theorem sweep_steps {R : Nat} {A : Int → Int → Prop} {D : Int} (xs ys : List Int)
    (hA : ∀ x ∈ xs, ∀ y ∈ ys, A x y) {pm pm' : PatchMatcher N}
    (h : ys.foldlM (fun p y => xs.foldlM (fun q x => visit R D x y q) p) pm = some pm') :
    Steps R A pm pm' := by
  refine foldlM_inv (fun s => Steps R A pm s) _ ys ?_ pm pm' (Steps.refl _) h
  intro s y s' hy hs hrow
  refine foldlM_inv (fun t => Steps R A pm t) _ xs ?_ s s' hs hrow
  intro t x t' hx ht hv
  exact ht.append (visit_steps (hA x hx y hy) hv)

theorem sweepForward_steps {R : Nat} {pm pm' : PatchMatcher N}
    (h : sweepForward R pm = some pm') : Steps R (Interior R pm) pm pm' := by
  refine sweep_steps _ _ ?_ h
  intro x hx y hy
  have hx' := mem_forRange.1 hx
  have hy' := mem_forRange.1 hy
  exact ⟨hx'.1, hx'.2, hy'.1, hy'.2⟩

theorem sweepBackward_steps {R : Nat} {pm pm' : PatchMatcher N}
    (h : sweepBackward R pm = some pm') : Steps R (Interior R pm) pm pm' := by
  refine sweep_steps _ _ ?_ h
  intro x hx y hy
  have hx' := mem_forRange.1 (List.mem_reverse.1 hx)
  have hy' := mem_forRange.1 (List.mem_reverse.1 hy)
  exact ⟨hx'.1, hx'.2, hy'.1, hy'.2⟩

theorem iterate_steps {R : Nat} {pm pm' : PatchMatcher N}
    (h : iterate R pm = some pm') : Steps R (Interior R pm) pm pm' := by
  unfold iterate at h
  simp only [Option.bind_eq_some] at h
  obtain ⟨pm1, h1, h2⟩ := h
  have s1 := sweepForward_steps h1
  have s2 := sweepBackward_steps h2
  refine s1.append (s2.mono ?_)
  intro x y hxy
  exact (s1.frame.interior R x y).1 hxy

/-! ## Nothing fails on a well-formed state -/

theorem propagate_total {R : Nat} {D : Int} (hR : 1 ≤ R) (hD : D = 1 ∨ D = -1)
    {pm : PatchMatcher N} {x y : Int} (wf : pm.WF) (hxy : Interior R pm x y) :
    ∃ pm', propagate R D pm x y = some pm' := by
  have hxy' := hxy
  obtain ⟨a1, a2, a3, a4⟩ := hxy'
  have hR' : (1 : Int) ≤ R := by exact_mod_cast hR
  obtain ⟨n0, hn0⟩ := Image.coeff_of_inRange wf.nnf (x := x + D) (y := y)
    (by rcases hD with rfl | rfl <;> omega)
    (by rw [wf.nnf_rows]; rcases hD with rfl | rfl <;> omega)
    (by omega) (by rw [wf.nnf_cols]; omega)
  obtain ⟨pm1, h1⟩ := update_total (n0.1 - D) n0.2 wf hxy
  have f1 := update_frame h1
  have wf1 := f1.wf wf
  obtain ⟨n1, hn1⟩ := Image.coeff_of_inRange wf1.nnf (x := x) (y := y + D)
    (by omega) (by rw [f1.nnf_rows, wf.nnf_rows]; omega)
    (by rcases hD with rfl | rfl <;> omega)
    (by rw [f1.nnf_cols, wf.nnf_cols]; rcases hD with rfl | rfl <;> omega)
  obtain ⟨pm2, h2⟩ := update_total n1.1 (n1.2 - D) wf1 ((f1.interior R x y).2 hxy)
  refine ⟨pm2, ?_⟩
  unfold propagate
  simp only [hn0, h1, hn1, h2, bind, Option.some_bind]

theorem searchRound_total {R : Nat} {pm : PatchMatcher N} {x y : Int} (x0 y0 : Int) (r : Nat)
    (wf : pm.WF) (hxy : Interior R pm x y) :
    ∃ pm', searchRound R x y x0 y0 pm r = some pm' := by
  unfold searchRound UniformInt.new
  rw [if_pos (by omega)]
  simp only [bind, Option.some_bind]
  exact update_total _ _ (wf.withRng _) hxy

/-- The loop of `search` ends before `fuel` rounds as soon as `r ≤ fuel`. -/
theorem searchLoop_total {R : Nat} {x y : Int} (x0 y0 : Int) (fuel : Nat) :
    ∀ (r : Nat) (pm : PatchMatcher N), r ≤ fuel → pm.WF → Interior R pm x y →
      ∃ pm', searchLoop R x y x0 y0 fuel r pm = some pm' := by
  induction fuel with
  | zero =>
    intro r pm hr _ _
    unfold searchLoop
    rw [if_neg (by omega)]
    exact ⟨_, rfl⟩
  | succ fuel ih =>
    intro r pm hr wf hxy
    unfold searchLoop
    split
    · rename_i h1
      obtain ⟨pm1, hpm1⟩ := searchRound_total (R := R) x0 y0 r wf hxy
      have f1 := (searchRound_steps (A := fun _ _ => True) trivial hpm1).frame
      have hhalf : r >>> 1 ≤ fuel := by
        rw [Nat.shiftRight_eq_div_pow]
        have : r / 2 ^ 1 < r := Nat.div_lt_self (by omega) (by norm_num)
        omega
      obtain ⟨pm2, hpm2⟩ := ih (r >>> 1) pm1 hhalf (f1.wf wf) ((f1.interior R x y).2 hxy)
      exact ⟨pm2, by simp only [hpm1, Option.some_bind, hpm2]⟩
    · exact ⟨_, rfl⟩

theorem search_total {R : Nat} {pm : PatchMatcher N} {x y : Int} (wf : pm.WF)
    (hxy : Interior R pm x y) : ∃ pm', search R pm x y = some pm' := by
  have hxy' := hxy
  obtain ⟨a1, a2, a3, a4⟩ := hxy'
  obtain ⟨n, hn⟩ := Image.coeff_of_inRange wf.nnf (x := x) (y := y)
    (by omega) (by rw [wf.nnf_rows]; omega) (by omega) (by rw [wf.nnf_cols]; omega)
  obtain ⟨pm', h⟩ := searchLoop_total (R := R) n.1 n.2 _ _ pm (le_refl _) wf hxy
  refine ⟨pm', ?_⟩
  unfold search
  simp only [hn, bind, Option.some_bind]
  exact h

theorem visit_total {R : Nat} {D : Int} (hR : 1 ≤ R) (hD : D = 1 ∨ D = -1)
    {pm : PatchMatcher N} {x y : Int} (wf : pm.WF) (hxy : Interior R pm x y) :
    ∃ pm', visit R D x y pm = some pm' := by
  obtain ⟨pm1, h1⟩ := propagate_total hR hD wf hxy
  have f1 := (propagate_steps (A := fun _ _ => True) trivial h1).frame
  obtain ⟨pm2, h2⟩ := search_total (f1.wf wf) ((f1.interior R x y).2 hxy)
  exact ⟨pm2, by unfold visit; simp only [h1, Option.some_bind, h2]⟩

theorem sweep_total {R : Nat} {D : Int} (hR : 1 ≤ R) (hD : D = 1 ∨ D = -1)
    (pm0 : PatchMatcher N) (xs ys : List Int)
    (hA : ∀ x ∈ xs, ∀ y ∈ ys, Interior R pm0 x y) (pm : PatchMatcher N)
    (wf : pm.WF) (hf : SameFrame pm0 pm) :
    ∃ pm', ys.foldlM (fun p y => xs.foldlM (fun q x => visit R D x y q) p) pm = some pm' := by
  obtain ⟨pm', h, _⟩ := foldlM_total (fun s => s.WF ∧ SameFrame pm0 s)
    (fun p y => xs.foldlM (fun q x => visit R D x y q) p) ys
    (by
      intro s y hy hs
      apply foldlM_total (fun s => s.WF ∧ SameFrame pm0 s) _ xs _ s hs
      intro t x hx ht
      obtain ⟨t', ht'⟩ := visit_total hR hD ht.1 ((ht.2.interior R x y).2 (hA x hx y hy))
      have f := (visit_steps (A := fun _ _ => True) trivial ht').frame
      exact ⟨t', ht', f.wf ht.1, ht.2.then f⟩)
    pm ⟨wf, hf⟩
  exact ⟨pm', h⟩

/-- On a well-formed state and with `Radius ≥ 1`, `iterate` reads and writes only existing
entries and returns. -/
theorem iterate_total {R : Nat} (hR : 1 ≤ R) {pm : PatchMatcher N} (wf : pm.WF) :
    ∃ pm', iterate R pm = some pm' := by
  obtain ⟨pm1, h1⟩ := sweep_total (D := -1) hR (Or.inr rfl) pm
    (forRange R ((pm.image0.rows : Int) - R)) (forRange R ((pm.image0.cols : Int) - R))
    (by
      intro x hx y hy
      have hx' := mem_forRange.1 hx
      have hy' := mem_forRange.1 hy
      exact ⟨hx'.1, hx'.2, hy'.1, hy'.2⟩) pm wf (SameFrame.rfl_frame _)
  have f1 := (sweepForward_steps h1).frame
  obtain ⟨pm2, h2⟩ := sweep_total (D := 1) hR (Or.inl rfl) pm1
    (forRange R ((pm1.image0.rows : Int) - R)).reverse
    (forRange R ((pm1.image0.cols : Int) - R)).reverse
    (by
      intro x hx y hy
      have hx' := mem_forRange.1 (List.mem_reverse.1 hx)
      have hy' := mem_forRange.1 (List.mem_reverse.1 hy)
      exact ⟨hx'.1, hx'.2, hy'.1, hy'.2⟩) pm1 (f1.wf wf) (SameFrame.rfl_frame _)
  refine ⟨pm2, ?_⟩
  have h1' : sweepForward R pm = some pm1 := h1
  have h2' : sweepBackward R pm1 = some pm2 := h2
  unfold iterate
  rw [h1']
  exact h2'

/-! ## Invariants of the nearest-neighbour field -/

/-- A loop whose body establishes `Q a` when it handles `a`, and keeps every `Q b`,
ends with `Q a` for all the elements it handled. -/
theorem foldlM_establish {σ α : Type} (P : σ → Prop) (Q : α → σ → Prop)
    (f : σ → α → Option σ) (l : List α)
    (hP : ∀ s a s', P s → f s a = some s' → P s')
    (hpres : ∀ s a s' b, P s → f s a = some s' → Q b s → Q b s')
    (hest : ∀ s a s', a ∈ l → P s → f s a = some s' → Q a s') :
    ∀ s s', P s → l.foldlM f s = some s' → ∀ a ∈ l, Q a s' := by
  induction l with
  | nil =>
    intro s s' _ _ a ha
    exact absurd ha (List.not_mem_nil _)
  | cons a l ih =>
    intro s s' hs h b hb
    simp only [List.foldlM_cons, bind, Option.bind_eq_some] at h
    obtain ⟨s1, h1, h2⟩ := h
    rcases List.mem_cons.1 hb with rfl | hb'
    · exact (foldlM_inv (fun t => P t ∧ Q b t) f l
        (fun s a s' _ hs hf => ⟨hP s a s' hs.1 hf, hpres s a s' b hs.1 hf hs.2⟩) s1 s'
        ⟨hP s b s1 hs h1, hest s b s1 (List.mem_cons_self _ _) hs h1⟩ h2).2
    · exact ih (fun s a s' ha => hest s a s' (List.mem_cons_of_mem _ ha)) s1 s'
        (hP s a s1 hs h1) h2 b hb'

/-! ### `update` keeps the invariants -/

theorem update_consistentAt {R : Nat} {pm pm' : PatchMatcher N} {x y x0 y0 : Int}
    (h : update R pm x y x0 y0 = some pm') (x' y' : Int) (hc : ConsistentAt R pm x' y') :
    ConsistentAt R pm' x' y' := by
  rcases update_cases h with rfl | ⟨_, d, sc, nnf1, score1, hd, _, _, hn, hs, rfl⟩
  · exact hc
  · by_cases he : x' = x ∧ y' = y
    · obtain ⟨rfl, rfl⟩ := he
      exact ⟨(x0, y0), d, Image.coeff_setCoeff_self hn, Image.coeff_setCoeff_self hs,
        (distance_congr R rfl rfl _ _ _ _).trans hd⟩
    · obtain ⟨n, sc', h1, h2, h3⟩ := hc
      exact ⟨n, sc', (Image.coeff_setCoeff_ne hn he).trans h1,
        (Image.coeff_setCoeff_ne hs he).trans h2, (distance_congr R rfl rfl _ _ _ _).trans h3⟩

theorem update_validAt {R : Nat} {pm pm' : PatchMatcher N} {x y x0 y0 : Int}
    (h : update R pm x y x0 y0 = some pm') (x' y' : Int) (hc : ValidAt R pm x' y') :
    ValidAt R pm' x' y' := by
  rcases update_cases h with rfl | ⟨hg, d, sc, nnf1, score1, hd, _, _, hn, hs, rfl⟩
  · exact hc
  · by_cases he : x' = x ∧ y' = y
    · obtain ⟨rfl, rfl⟩ := he
      exact ⟨(x0, y0), Image.coeff_setCoeff_self hn, hg⟩
    · obtain ⟨n, h1, h2⟩ := hc
      exact ⟨n, (Image.coeff_setCoeff_ne hn he).trans h1, h2⟩

theorem ScoreLE.rfl_score (pm : PatchMatcher N) : ScoreLE pm pm :=
  fun _ _ sc h => ⟨sc, h, le_refl _⟩

theorem ScoreLE.then_score {a b c : PatchMatcher N} (h1 : ScoreLE a b) (h2 : ScoreLE b c) :
    ScoreLE a c := by
  intro x y sc h
  obtain ⟨sc1, e1, l1⟩ := h1 x y sc h
  obtain ⟨sc2, e2, l2⟩ := h2 x y sc1 e1
  exact ⟨sc2, e2, le_trans l2 l1⟩

theorem update_scoreLE {R : Nat} {pm pm' : PatchMatcher N} {x y x0 y0 : Int}
    (h : update R pm x y x0 y0 = some pm') : ScoreLE pm pm' := by
  rcases update_cases h with rfl | ⟨_, d, sc, nnf1, score1, hd, hsc, hlt, hn, hs, rfl⟩
  · exact ScoreLE.rfl_score _
  · intro x' y' sc' h'
    by_cases he : x' = x ∧ y' = y
    · obtain ⟨rfl, rfl⟩ := he
      rw [hsc] at h'
      simp only [Option.some.injEq] at h'
      subst h'
      exact ⟨d, Image.coeff_setCoeff_self hs, le_of_lt hlt⟩
    · exact ⟨sc', (Image.coeff_setCoeff_ne hs he).trans h', le_refl _⟩

/-! ### Sequences of updates keep the invariants -/

theorem Steps.consistentAt {R : Nat} {A : Int → Int → Prop} {a b : PatchMatcher N}
    (h : Steps R A a b) (x y : Int) (hc : ConsistentAt R a x y) : ConsistentAt R b x y := by
  induction h with
  | refl => exact hc
  | update _ _ hu ih => exact update_consistentAt hu x y ih
  | draw g _ ih =>
    obtain ⟨n, sc, h1, h2, h3⟩ := ih
    exact ⟨n, sc, h1, h2, (distance_congr R rfl rfl _ _ _ _).trans h3⟩

theorem Steps.validAt {R : Nat} {A : Int → Int → Prop} {a b : PatchMatcher N}
    (h : Steps R A a b) (x y : Int) (hc : ValidAt R a x y) : ValidAt R b x y := by
  induction h with
  | refl => exact hc
  | update _ _ hu ih => exact update_validAt hu x y ih
  | draw g _ ih => exact ih

theorem Steps.scoreLE {R : Nat} {A : Int → Int → Prop} {a b : PatchMatcher N}
    (h : Steps R A a b) : ScoreLE a b := by
  induction h with
  | refl => exact ScoreLE.rfl_score _
  | update _ _ hu ih => exact ih.then_score (update_scoreLE hu)
  | draw g _ ih => exact ih

theorem Steps.sameOutside {R : Nat} {A : Int → Int → Prop} {a b : PatchMatcher N}
    (h : Steps R A a b) : SameOutside A a b := by
  induction h with
  | refl => exact fun _ _ _ => ⟨rfl, rfl⟩
  | @update pm1 pm2 x y x0 y0 _ hA hu ih =>
    intro x' y' hn
    have hne : ¬ (x' = x ∧ y' = y) := by
      rintro ⟨rfl, rfl⟩
      exact hn hA
    obtain ⟨h1, h2⟩ := update_other hu hne
    exact ⟨h1.trans (ih x' y' hn).1, h2.trans (ih x' y' hn).2⟩
  | draw g _ ih => exact ih

/-! ### The constructor -/

theorem UniformInt.draw_mem {a b : Int} {d : UniformInt} (h : UniformInt.new a b = some d)
    (g : Rng) : a ≤ (d.draw g).1 ∧ (d.draw g).1 ≤ b := by
  unfold UniformInt.new at h
  split at h
  · rename_i hab
    simp only [Option.some.injEq] at h
    subst h
    simp only [UniformInt.draw]
    have h1 : 0 ≤ ((g 0 : Nat) : Int) % (b - a + 1) := Int.emod_nonneg _ (by omega)
    have h2 : ((g 0 : Nat) : Int) % (b - a + 1) < b - a + 1 := Int.emod_lt_of_pos _ (by omega)
    omega
  · exact Option.noConfusion h

/-- What one pass of the constructor's loop body does: the two components of the offset of
`(x, y)` are the two draws, the score of `(x, y)` is their distance, nothing else changes. -/
theorem initPixel_spec {R : Nat} {d0 d1 : UniformInt} {x y : Int} {pm pm' : PatchMatcher N}
    (h : initPixel R d0 d1 x y pm = some pm') :
    SameFrame pm pm' ∧
    pm'.nnf.coeff x y = some ((d0.draw pm.rng).1, (d1.draw (d0.draw pm.rng).2).1) ∧
    (∃ d, pm'.score.coeff x y = some d ∧
      distance R pm x y (d0.draw pm.rng).1 (d1.draw (d0.draw pm.rng).2).1 = some d) ∧
    (∀ x' y', ¬ (x' = x ∧ y' = y) →
      pm'.nnf.coeff x' y' = pm.nnf.coeff x' y' ∧ pm'.score.coeff x' y' = pm.score.coeff x' y') := by
  unfold initPixel at h
  simp only [bind, Option.bind_eq_some, pure, Option.some.injEq] at h
  obtain ⟨e0, _, nnf1, hn1, e1, he1, nnf2, hn2, e2, he2, d, hd, score1, hs, rfl⟩ := h
  rw [Image.coeff_setCoeff_self hn1] at he1
  simp only [Option.some.injEq] at he1
  subst he1
  rw [Image.coeff_setCoeff_self hn2] at he2
  simp only [Option.some.injEq] at he2
  subst he2
  obtain ⟨a1, a2, a3⟩ := Image.setCoeff_shape hn1
  obtain ⟨b1, b2, b3⟩ := Image.setCoeff_shape hn2
  obtain ⟨c1, c2, c3⟩ := Image.setCoeff_shape hs
  refine ⟨⟨rfl, rfl, b1.trans a1, b2.trans a2, b3.trans a3, c1, c2, c3⟩,
    Image.coeff_setCoeff_self hn2, ⟨d, Image.coeff_setCoeff_self hs, hd⟩, ?_⟩
  intro x' y' hne
  exact ⟨(Image.coeff_setCoeff_ne hn2 hne).trans (Image.coeff_setCoeff_ne hn1 hne),
    Image.coeff_setCoeff_ne hs hne⟩

theorem initPixel_consistentAt {R : Nat} {d0 d1 : UniformInt} {x y : Int}
    {pm pm' : PatchMatcher N} (h : initPixel R d0 d1 x y pm = some pm') (x' y' : Int)
    (hc : ConsistentAt R pm x' y' ∨ (x' = x ∧ y' = y)) : ConsistentAt R pm' x' y' := by
  obtain ⟨f, hn, ⟨d, hs, hd⟩, hother⟩ := initPixel_spec h
  by_cases he : x' = x ∧ y' = y
  · obtain ⟨rfl, rfl⟩ := he
    exact ⟨_, d, hn, hs, (distance_congr R f.image0 f.image1 _ _ _ _).trans hd⟩
  · rcases hc with hc | hc
    · obtain ⟨n, sc, h1, h2, h3⟩ := hc
      exact ⟨n, sc, (hother x' y' he).1.trans h1, (hother x' y' he).2.trans h2,
        (distance_congr R f.image0 f.image1 _ _ _ _).trans h3⟩
    · exact absurd hc he

theorem initPixel_validAt {R : Nat} {d0 d1 : UniformInt} {x y : Int}
    {pm pm' : PatchMatcher N}
    (h0 : UniformInt.new R ((pm.image1.rows : Int) - R - 1) = some d0)
    (h1 : UniformInt.new R ((pm.image1.cols : Int) - R - 1) = some d1)
    (h : initPixel R d0 d1 x y pm = some pm') (x' y' : Int)
    (hc : ValidAt R pm x' y' ∨ (x' = x ∧ y' = y)) : ValidAt R pm' x' y' := by
  obtain ⟨f, hn, _, hother⟩ := initPixel_spec h
  by_cases he : x' = x ∧ y' = y
  · obtain ⟨rfl, rfl⟩ := he
    refine ⟨_, hn, ?_⟩
    have m0 := UniformInt.draw_mem h0 pm.rng
    have m1 := UniformInt.draw_mem h1 (d0.draw pm.rng).2
    unfold InTarget
    rw [f.image1]
    simp only
    omega
  · rcases hc with hc | hc
    · obtain ⟨n, e1, e2⟩ := hc
      exact ⟨n, (hother x' y' he).1.trans e1, (f.inTarget R _ _).2 e2⟩
    · exact absurd hc he

theorem Image.fresh_wf {α : Type} (rows cols : Nat) (junk : Nat → α) :
    (Image.fresh rows cols junk).WF := by
  simp [Image.fresh, Image.WF]

theorem allocate_wf {img0 img1 : Image (Pixel N)} (wf0 : img0.WF) (wf1 : img1.WF)
    (junkNnf : Nat → Int × Int) (junkScore : Nat → Int) (g : Rng) :
    (allocate img0 img1 junkNnf junkScore g).WF :=
  ⟨wf0, wf1, Image.fresh_wf _ _ _, Image.fresh_wf _ _ _, rfl, rfl, rfl, rfl⟩

/-- The initialisation loops over the pixels `xs × ys`: the frame is kept, entries outside
`xs × ys` are untouched, and every pixel of `xs × ys` ends consistent and valid. -/
theorem initLoop_spec {R : Nat} {d0 d1 : UniformInt} (xs ys : List Int)
    (s0 : PatchMatcher N) {pm : PatchMatcher N}
    (h0 : UniformInt.new R ((s0.image1.rows : Int) - R - 1) = some d0)
    (h1 : UniformInt.new R ((s0.image1.cols : Int) - R - 1) = some d1)
    (h : ys.foldlM (fun p y => xs.foldlM (fun q x => initPixel R d0 d1 x y q) p) s0 = some pm) :
    SameFrame s0 pm ∧ SameOutside (fun x y => x ∈ xs ∧ y ∈ ys) s0 pm ∧
      ∀ y ∈ ys, ∀ x ∈ xs, ConsistentAt R pm x y ∧ ValidAt R pm x y := by
  -- one pass of the body
  have hbody : ∀ (q q' : PatchMatcher N) (x y : Int), SameFrame s0 q →
      initPixel R d0 d1 x y q = some q' →
      SameFrame s0 q' ∧ (∀ x' y', (ConsistentAt R q x' y' ∧ ValidAt R q x' y') ∨ (x' = x ∧ y' = y) →
        ConsistentAt R q' x' y' ∧ ValidAt R q' x' y') := by
    intro q q' x y hf hq
    refine ⟨hf.then (initPixel_spec hq).1, ?_⟩
    intro x' y' hc
    refine ⟨initPixel_consistentAt hq x' y' (hc.imp_left And.left), ?_⟩
    exact initPixel_validAt (by rw [hf.image1]; exact h0) (by rw [hf.image1]; exact h1) hq x' y'
      (hc.imp_left And.right)
  -- one row
  have hrow : ∀ (p p' : PatchMatcher N) (y : Int), SameFrame s0 p →
      xs.foldlM (fun q x => initPixel R d0 d1 x y q) p = some p' →
      SameFrame s0 p' ∧
      (∀ x' y', ConsistentAt R p x' y' ∧ ValidAt R p x' y' →
        ConsistentAt R p' x' y' ∧ ValidAt R p' x' y') ∧
      (∀ x ∈ xs, ConsistentAt R p' x y ∧ ValidAt R p' x y) := by
    intro p p' y hf hp
    refine ⟨?_, ?_, ?_⟩
    · exact foldlM_inv (fun t => SameFrame s0 t) _ xs
        (fun s a s' _ hs hq => (hbody s s' a y hs hq).1) p p' hf hp
    · intro x' y' hc
      exact (foldlM_inv (fun t => SameFrame s0 t ∧ ConsistentAt R t x' y' ∧ ValidAt R t x' y') _ xs
        (fun s a s' _ hs hq => ⟨(hbody s s' a y hs.1 hq).1,
          (hbody s s' a y hs.1 hq).2 x' y' (Or.inl hs.2)⟩) p p' ⟨hf, hc⟩ hp).2
    · exact foldlM_establish (fun t => SameFrame s0 t)
        (fun x t => ConsistentAt R t x y ∧ ValidAt R t x y) _ xs
        (fun s a s' hs hq => (hbody s s' a y hs hq).1)
        (fun s a s' b hs hq hb => (hbody s s' a y hs hq).2 b y (Or.inl hb))
        (fun s a s' _ hs hq => (hbody s s' a y hs hq).2 a y (Or.inr ⟨rfl, rfl⟩)) p p' hf hp
  refine ⟨?_, ?_, ?_⟩
  · exact foldlM_inv (fun t => SameFrame s0 t) _ ys
      (fun s a s' _ hs hq => (hrow s s' a hs hq).1) s0 pm (SameFrame.rfl_frame _) h
  · refine foldlM_inv (fun t => SameOutside (fun x y => x ∈ xs ∧ y ∈ ys) s0 t) _ ys ?_ s0 pm
      (fun _ _ _ => ⟨rfl, rfl⟩) h
    intro s y s' hy hs hq
    refine foldlM_inv (fun t => SameOutside (fun x y => x ∈ xs ∧ y ∈ ys) s0 t) _ xs ?_ s s' hs hq
    intro t x t' hx ht hi x' y' hn
    have hne : ¬ (x' = x ∧ y' = y) := by
      rintro ⟨rfl, rfl⟩
      exact hn ⟨hx, hy⟩
    obtain ⟨e1, e2⟩ := (initPixel_spec hi).2.2.2 x' y' hne
    exact ⟨e1.trans (ht x' y' hn).1, e2.trans (ht x' y' hn).2⟩
  · intro y hy x hx
    exact foldlM_establish (fun t => SameFrame s0 t)
      (fun y t => ∀ x ∈ xs, ConsistentAt R t x y ∧ ValidAt R t x y) _ ys
      (fun s a s' hs hq => (hrow s s' a hs hq).1)
      (fun s a s' b hs hq hb x hx => (hrow s s' a hs hq).2.1 x b (hb x hx))
      (fun s a s' _ hs hq => (hrow s s' a hs hq).2.2) s0 pm (SameFrame.rfl_frame _) h y hy x hx

/-- The state built by the constructor. -/
theorem construct_spec {R : Nat} {img0 img1 : Image (Pixel N)} {junkNnf : Nat → Int × Int}
    {junkScore : Nat → Int} {g : Rng} {pm : PatchMatcher N}
    (h : construct R img0 img1 junkNnf junkScore g = some pm) :
    SameFrame (allocate img0 img1 junkNnf junkScore g) pm ∧
    SameOutside (Interior R pm) (allocate img0 img1 junkNnf junkScore g) pm ∧
    (∀ x y, Interior R pm x y → ConsistentAt R pm x y ∧ ValidAt R pm x y) ∧
    ((2 * R + 1 : Int) ≤ img1.rows ∧ (2 * R + 1 : Int) ≤ img1.cols) := by
  unfold construct at h
  simp only [bind, Option.bind_eq_some] at h
  obtain ⟨d0, h0, d1, h1, h⟩ := h
  obtain ⟨f, hout, hin⟩ := initLoop_spec _ _ (allocate img0 img1 junkNnf junkScore g) h0 h1 h
  have hint : ∀ x y, Interior R pm x y ↔
      (x ∈ forRange R ((img0.rows : Int) - R) ∧ y ∈ forRange R ((img0.cols : Int) - R)) := by
    intro x y
    rw [f.interior R x y, mem_forRange, mem_forRange]
    unfold Interior allocate
    simp only
    constructor
    · rintro ⟨a, b, c, d⟩; exact ⟨⟨a, b⟩, c, d⟩
    · rintro ⟨⟨a, b⟩, c, d⟩; exact ⟨a, b, c, d⟩
  refine ⟨f, ?_, ?_, ?_⟩
  · intro x y hn
    exact hout x y (fun hc => hn ((hint x y).2 hc))
  · intro x y hxy
    obtain ⟨hx, hy⟩ := (hint x y).1 hxy
    exact hin y hy x hx
  · unfold UniformInt.new at h0 h1
    constructor
    · by_contra hc
      rw [if_neg (by omega)] at h0
      exact Option.noConfusion h0
    · by_contra hc
      rw [if_neg (by omega)] at h1
      exact Option.noConfusion h1

/-- Every reachable state is obtained from a constructed one by updates; it is well formed,
consistent and valid at every interior pixel. -/
theorem Reachable.invariants {R : Nat} {pm : PatchMatcher N} (h : Reachable R pm) :
    pm.WF ∧ ∀ x y, Interior R pm x y → ConsistentAt R pm x y ∧ ValidAt R pm x y := by
  have hstep : ∀ (a b : PatchMatcher N), Steps R (fun _ _ => True) a b →
      (a.WF ∧ ∀ x y, Interior R a x y → ConsistentAt R a x y ∧ ValidAt R a x y) →
      (b.WF ∧ ∀ x y, Interior R b x y → ConsistentAt R b x y ∧ ValidAt R b x y) := by
    intro a b hs ⟨wf, hinv⟩
    refine ⟨hs.frame.wf wf, ?_⟩
    intro x y hxy
    obtain ⟨c, v⟩ := hinv x y ((hs.frame.interior R x y).1 hxy)
    exact ⟨hs.consistentAt x y c, hs.validAt x y v⟩
  induction h with
  | construct wf0 wf1 hc =>
    obtain ⟨f, _, hin, _⟩ := construct_spec hc
    exact ⟨f.wf (allocate_wf wf0 wf1 _ _ _), hin⟩
  | update _ hu ih => exact hstep _ _ (Steps.update (Steps.refl _) trivial hu) ih
  | propagate _ hp ih => exact hstep _ _ (propagate_steps trivial hp) ih
  | search _ hs ih => exact hstep _ _ (search_steps trivial hs) ih
  | iterate _ hi ih => exact hstep _ _ ((iterate_steps hi).mono (fun _ _ _ => trivial)) ih

/-- One pass of the constructor's loop body at an interior pixel returns. -/
theorem initPixel_total {R : Nat} {d0 d1 : UniformInt} {x y : Int} {pm : PatchMatcher N}
    (h0 : UniformInt.new R ((pm.image1.rows : Int) - R - 1) = some d0)
    (h1 : UniformInt.new R ((pm.image1.cols : Int) - R - 1) = some d1)
    (wf : pm.WF) (hxy : Interior R pm x y) :
    ∃ pm', initPixel R d0 d1 x y pm = some pm' := by
  obtain ⟨a1, a2, a3, a4⟩ := hxy
  have r1 : x < (pm.nnf.rows : Int) := by rw [wf.nnf_rows]; omega
  have r2 : y < (pm.nnf.cols : Int) := by rw [wf.nnf_cols]; omega
  have r3 : x < (pm.score.rows : Int) := by rw [wf.score_rows]; omega
  have r4 : y < (pm.score.cols : Int) := by rw [wf.score_cols]; omega
  obtain ⟨e0, he0⟩ := Image.coeff_of_inRange wf.nnf (x := x) (y := y) (by omega) r1 (by omega) r2
  obtain ⟨nnf1, hn1⟩ := Image.setCoeff_of_inRange wf.nnf (x := x) (y := y)
    ((d0.draw pm.rng).1, e0.2) (by omega) r1 (by omega) r2
  obtain ⟨s1, s2, _⟩ := Image.setCoeff_shape hn1
  obtain ⟨nnf2, hn2⟩ := Image.setCoeff_of_inRange (Image.setCoeff_wf hn1 wf.nnf) (x := x) (y := y)
    ((d0.draw pm.rng).1, (d1.draw (d0.draw pm.rng).2).1) (by omega) (by rw [s1]; exact r1)
    (by omega) (by rw [s2]; exact r2)
  have m0 := UniformInt.draw_mem h0 pm.rng
  have m1 := UniformInt.draw_mem h1 (d0.draw pm.rng).2
  obtain ⟨d, hd⟩ := distance_total R pm x y (d0.draw pm.rng).1 (d1.draw (d0.draw pm.rng).2).1
    wf.image0 wf.image1 ⟨⟨a1, by omega, a3, by omega⟩, ⟨m0.1, by omega, m1.1, by omega⟩⟩
  obtain ⟨score1, hs⟩ := Image.setCoeff_of_inRange wf.score (x := x) (y := y) d
    (by omega) r3 (by omega) r4
  refine ⟨{ pm with nnf := nnf2, score := score1, rng := (d1.draw (d0.draw pm.rng).2).2 }, ?_⟩
  unfold initPixel
  simp only [he0, hn1, Image.coeff_setCoeff_self hn1, hn2, Image.coeff_setCoeff_self hn2, hd, hs,
    bind, Option.some_bind, pure]

/-- On well-formed images with a target of at least `(2R+1) × (2R+1)` pixels the constructor
reads and writes only existing entries and returns. -/
theorem construct_total (R : Nat) {img0 img1 : Image (Pixel N)} (wf0 : img0.WF)
    (wf1 : img1.WF) (hrows : 2 * R + 1 ≤ img1.rows) (hcols : 2 * R + 1 ≤ img1.cols)
    (junkNnf : Nat → Int × Int) (junkScore : Nat → Int) (g : Rng) :
    ∃ pm, construct R img0 img1 junkNnf junkScore g = some pm := by
  have h0 : UniformInt.new R ((img1.rows : Int) - R - 1) = some ⟨R, (img1.rows : Int) - R - 1⟩ := by
    unfold UniformInt.new
    rw [if_pos (by omega)]
  have h1 : UniformInt.new R ((img1.cols : Int) - R - 1) = some ⟨R, (img1.cols : Int) - R - 1⟩ := by
    unfold UniformInt.new
    rw [if_pos (by omega)]
  unfold construct
  simp only [h0, h1, bind, Option.some_bind]
  obtain ⟨pm, hpm, _⟩ := foldlM_total
    (fun s => s.WF ∧ SameFrame (allocate img0 img1 junkNnf junkScore g) s)
    (fun p y => (forRange R ((img0.rows : Int) - R)).foldlM
      (fun q x => initPixel R ⟨R, (img1.rows : Int) - R - 1⟩ ⟨R, (img1.cols : Int) - R - 1⟩ x y q) p)
    (forRange R ((img0.cols : Int) - R))
    (by
      intro s y hy hs
      apply foldlM_total (fun s => s.WF ∧ SameFrame (allocate img0 img1 junkNnf junkScore g) s)
        _ _ _ s hs
      intro t x hx ht
      have hx' := mem_forRange.1 hx
      have hy' := mem_forRange.1 hy
      have e0 : t.image0 = img0 := ht.2.image0
      have e1 : t.image1 = img1 := ht.2.image1
      have hI : Interior R t x y := by
        unfold Interior
        rw [e0]
        exact ⟨hx'.1, hx'.2, hy'.1, hy'.2⟩
      obtain ⟨t', ht'⟩ := initPixel_total (by rw [e1]; exact h0) (by rw [e1]; exact h1) ht.1 hI
      have f := (initPixel_spec ht').1
      exact ⟨t', ht', f.wf ht.1, ht.2.then f⟩)
    (allocate img0 img1 junkNnf junkScore g)
    ⟨allocate_wf wf0 wf1 _ _ _, SameFrame.rfl_frame _⟩
  exact ⟨pm, hpm⟩

theorem update_outside {R : Nat} (pm : PatchMatcher N) (x y : Int) {x0 y0 : Int}
    (h : ¬ InTarget R pm x0 y0) : update R pm x y x0 y0 = some pm := by
  unfold InTarget at h
  unfold update
  rw [if_neg h]
  rfl

/-- The score stored at `(x, y)` after a successful `update`. -/
theorem update_score {R : Nat} {pm pm' : PatchMatcher N} {x y x0 y0 sc : Int}
    (h : update R pm x y x0 y0 = some pm') (hsc : pm.score.coeff x y = some sc) :
    pm'.score.coeff x y = some (bestOf R pm x y sc (x0, y0)) := by
  unfold bestOf
  by_cases hg : InTarget R pm x0 y0
  · have hg' := hg
    unfold InTarget at hg'
    rw [if_pos hg']
    unfold update at h
    rw [if_pos hg'] at h
    simp only [bind, Option.bind_eq_some] at h
    obtain ⟨d, hd, sc', hsc', h⟩ := h
    rw [hsc] at hsc'
    simp only [Option.some.injEq] at hsc'
    subst hsc'
    simp only [hd]
    split at h
    · rename_i hlt
      simp only [bind, Option.bind_eq_some, pure, Option.some.injEq] at h
      obtain ⟨nnf1, _, score1, hs, rfl⟩ := h
      rw [min_eq_right (le_of_lt hlt)]
      exact Image.coeff_setCoeff_self hs
    · rename_i hlt
      simp only [pure, Option.some.injEq] at h
      subst h
      rw [min_eq_left (not_lt.1 hlt)]
      exact hsc
  · have hg' := hg
    unfold InTarget at hg'
    rw [if_neg hg']
    rw [update_outside pm x y hg] at h
    simp only [Option.some.injEq] at h
    subst h
    exact hsc

theorem bestOf_congr (R : Nat) {pm pm' : PatchMatcher N} (f : SameFrame pm pm') (x y sc : Int)
    (c : Int × Int) : bestOf R pm' x y sc c = bestOf R pm x y sc c := by
  unfold bestOf
  rw [f.image1, distance_congr R f.image0 f.image1]

/-! ## `search` -/

theorem searchRadii_one : searchRadii 1 = [1] := by
  have h : Nat.log2 1 = 0 := by rw [Nat.log2_eq_log_two, Nat.log_one_right]
  unfold searchRadii
  rw [h]
  rfl

theorem searchRadii_step {r : Nat} (h : 2 ≤ r) : searchRadii r = r :: searchRadii (r >>> 1) := by
  unfold searchRadii
  have hlog : Nat.log2 r = Nat.log2 (r >>> 1) + 1 := by
    rw [Nat.log2_eq_log_two, Nat.log2_eq_log_two, Nat.shiftRight_eq_div_pow, pow_one]
    exact Nat.log_of_one_lt_of_le (by norm_num) h
  rw [hlog, List.range_succ_eq_map, List.map_cons, List.map_map]
  congr 1
  apply List.map_congr_left
  intro i _
  show r >>> (i + 1) = (r >>> 1) >>> i
  rw [Nat.add_comm, Nat.shiftRight_add]

theorem searchLoop_zero (R : Nat) (x y x0 y0 : Int) (fuel : Nat) (pm : PatchMatcher N) :
    searchLoop R x y x0 y0 fuel 0 pm = some pm := by
  cases fuel <;> rfl

/-- With enough fuel the loop of `search` runs the rounds of radii `searchRadii r`, in order. -/
theorem searchLoop_eq_rounds (R : Nat) (x y x0 y0 : Int) (fuel : Nat) :
    ∀ (r : Nat) (pm : PatchMatcher N), 1 ≤ r → r ≤ fuel →
      searchLoop R x y x0 y0 fuel r pm
        = (searchRadii r).foldlM (searchRound R x y x0 y0) pm := by
  induction fuel with
  | zero =>
    intro r pm h1 h2
    omega
  | succ fuel ih =>
    intro r pm h1 h2
    unfold searchLoop
    rw [if_pos h1]
    by_cases hr : r = 1
    · subst hr
      rw [searchRadii_one]
      have : (1 : Nat) >>> 1 = 0 := by decide
      rw [this]
      simp only [List.foldlM_cons, List.foldlM_nil, bind]
      congr 1
      funext s
      exact searchLoop_zero R x y x0 y0 fuel s
    · have h2' : 2 ≤ r := by omega
      have hhalf : 1 ≤ r >>> 1 ∧ r >>> 1 ≤ fuel := by
        rw [Nat.shiftRight_eq_div_pow, pow_one]
        constructor
        · exact (Nat.le_div_iff_mul_le (by norm_num)).2 (by omega)
        · have : r / 2 < r := Nat.div_lt_self (by omega) (by norm_num)
          omega
      rw [searchRadii_step h2']
      simp only [List.foldlM_cons, bind]
      congr 1
      funext s
      exact ih (r >>> 1) s hhalf.1 hhalf.2

theorem shiftRight_log2 {M : Nat} (h : 1 ≤ M) : M >>> Nat.log2 M = 1 := by
  rw [Nat.shiftRight_eq_div_pow]
  have h1 : 2 ^ Nat.log2 M ≤ M := Nat.log2_self_le (by omega)
  have h2 : M < 2 ^ (Nat.log2 M + 1) := Nat.lt_log2_self
  have hpos : 0 < 2 ^ Nat.log2 M := pow_pos (by norm_num) _
  apply Nat.div_eq_of_lt_le
  · simpa using h1
  · rw [pow_succ] at h2
    omega

/-- One round of `search` with radius `r` draws two offsets of `[-r, r]` and proposes one
candidate. -/
theorem searchRound_candidate (R : Nat) (x y x0 y0 : Int) (pm : PatchMatcher N) (r : Nat) :
    ∃ ox oy g, -(r : Int) ≤ ox ∧ ox ≤ r ∧ -(r : Int) ≤ oy ∧ oy ≤ r ∧
      searchRound R x y x0 y0 pm r = update R { pm with rng := g } x y (x0 + ox) (y0 + oy) := by
  have hnew : UniformInt.new (-(r : Int)) (r : Int) = some ⟨-(r : Int), r⟩ := by
    unfold UniformInt.new
    rw [if_pos (by omega)]
  have m1 := UniformInt.draw_mem hnew pm.rng
  have m2 := UniformInt.draw_mem hnew ((UniformInt.mk (-(r : Int)) r).draw pm.rng).2
  refine ⟨((UniformInt.mk (-(r : Int)) r).draw pm.rng).1,
    ((UniformInt.mk (-(r : Int)) r).draw ((UniformInt.mk (-(r : Int)) r).draw pm.rng).2).1,
    ((UniformInt.mk (-(r : Int)) r).draw ((UniformInt.mk (-(r : Int)) r).draw pm.rng).2).2,
    m1.1, m1.2, m2.1, m2.2, ?_⟩
  unfold searchRound
  rw [hnew]
  simp only [bind, Option.some_bind]
  rw [Int.add_comm x0, Int.add_comm y0]

/-! ## `propagate` -/

/-- The two neighbours read by `propagate<D>` and the two calls of `update` it makes. -/
theorem propagate_updates {R : Nat} {D : Int} (hR : 1 ≤ R) (hD : D = 1 ∨ D = -1)
    {pm : PatchMatcher N} {x y : Int} (wf : pm.WF) (hxy : Interior R pm x y) :
    ∃ a b pm1 pm2, pm.nnf.coeff (x + D) y = some a ∧ pm.nnf.coeff x (y + D) = some b ∧
      update R pm x y (a.1 - D) a.2 = some pm1 ∧ update R pm1 x y b.1 (b.2 - D) = some pm2 ∧
      propagate R D pm x y = some pm2 := by
  obtain ⟨pm2, h⟩ := propagate_total hR hD wf hxy
  have h' := h
  unfold propagate at h'
  simp only [bind, Option.bind_eq_some] at h'
  obtain ⟨a, ha, pm1, h1, b, hb, h2⟩ := h'
  have hne : ¬ (x = x ∧ y + D = y) := by
    rintro ⟨_, hy⟩
    rcases hD with rfl | rfl <;> omega
  rw [(update_other h1 hne).1] at hb
  exact ⟨a, b, pm1, pm2, ha, hb, h1, h2, h⟩

/-! ## Rendering -/

theorem renderPixel_spec {pm : PatchMatcher N} {src1 dst dst' : Image (Pixel N)} {x y : Int}
    (h : renderPixel pm src1 x y dst = some dst') :
    (dst'.rows = dst.rows ∧ dst'.cols = dst.cols) ∧
    (∃ n p, pm.nnf.coeff x y = some n ∧ src1.coeff n.1 n.2 = some p ∧
      dst'.coeff x y = some p) ∧
    (∀ x' y', ¬ (x' = x ∧ y' = y) → dst'.coeff x' y' = dst.coeff x' y') := by
  unfold renderPixel at h
  simp only [bind, Option.bind_eq_some] at h
  obtain ⟨n, hn, p, hp, hs⟩ := h
  obtain ⟨s1, s2, _⟩ := Image.setCoeff_shape hs
  exact ⟨⟨s1, s2⟩, ⟨n, p, hn, hp, Image.coeff_setCoeff_self hs⟩,
    fun x' y' hne => Image.coeff_setCoeff_ne hs hne⟩

/-- The rendering loop assigns every pixel of the grid, margin pixels included, from the
nearest-neighbour field. -/
theorem render_spec {pm : PatchMatcher N} {src1 dst : Image (Pixel N)} {junk : Nat → Pixel N}
    (h : render pm src1 junk = some dst) :
    (dst.rows = pm.nnf.rows ∧ dst.cols = pm.nnf.cols) ∧
    ∀ x y, 0 ≤ x → x < (pm.nnf.rows : Int) → 0 ≤ y → y < (pm.nnf.cols : Int) →
      ∃ n p, pm.nnf.coeff x y = some n ∧ src1.coeff n.1 n.2 = some p ∧
        dst.coeff x y = some p := by
  unfold render at h
  have hrow : ∀ (d d' : Image (Pixel N)) (y : Int),
      (forRange 0 pm.nnf.rows).foldlM (fun e x => renderPixel pm src1 x y e) d = some d' →
      ((d.rows = pm.nnf.rows ∧ d.cols = pm.nnf.cols) →
        (d'.rows = pm.nnf.rows ∧ d'.cols = pm.nnf.cols)) ∧
      (∀ x' y' n p, pm.nnf.coeff x' y' = some n → src1.coeff n.1 n.2 = some p →
        d.coeff x' y' = some p → d'.coeff x' y' = some p) ∧
      (∀ x ∈ forRange 0 pm.nnf.rows, ∃ n p, pm.nnf.coeff x y = some n ∧
        src1.coeff n.1 n.2 = some p ∧ d'.coeff x y = some p) := by
    intro d d' y hd
    have hkeep : ∀ (e e' : Image (Pixel N)) (x x' y' : Int) (n : Int × Int) (p : Pixel N),
        renderPixel pm src1 x y e = some e' →
        pm.nnf.coeff x' y' = some n → src1.coeff n.1 n.2 = some p →
        e.coeff x' y' = some p → e'.coeff x' y' = some p := by
      intro e e' x x' y' n p he hn hp hc
      obtain ⟨_, ⟨n2, p2, hn2, hp2, hc2⟩, hother⟩ := renderPixel_spec he
      by_cases hq : x' = x ∧ y' = y
      · obtain ⟨rfl, rfl⟩ := hq
        rw [hn] at hn2
        simp only [Option.some.injEq] at hn2
        subst hn2
        rw [hp] at hp2
        simp only [Option.some.injEq] at hp2
        subst hp2
        exact hc2
      · exact (hother x' y' hq).trans hc
    refine ⟨?_, ?_, ?_⟩
    · intro hs
      exact foldlM_inv (fun e => e.rows = pm.nnf.rows ∧ e.cols = pm.nnf.cols) _ _
        (fun e x e' _ he hr => by
          obtain ⟨⟨s1, s2⟩, _, _⟩ := renderPixel_spec hr
          exact ⟨s1.trans he.1, s2.trans he.2⟩) d d' hs hd
    · intro x' y' n p hn hp hc
      exact foldlM_inv (fun e => e.coeff x' y' = some p) _ _
        (fun e x e' _ he hr => hkeep e e' x x' y' n p hr hn hp he) d d' hc hd
    · exact foldlM_establish (fun _ => True)
        (fun x e => ∃ n p, pm.nnf.coeff x y = some n ∧ src1.coeff n.1 n.2 = some p ∧
          e.coeff x y = some p) _ _
        (fun _ _ _ _ _ => trivial)
        (fun e x e' b _ hr hb => by
          obtain ⟨n, p, hn, hp, hc⟩ := hb
          exact ⟨n, p, hn, hp, hkeep e e' x b y n p hr hn hp hc⟩)
        (fun e x e' _ _ hr => (renderPixel_spec hr).2.1) d d' trivial hd
  constructor
  · exact foldlM_inv (fun e => e.rows = pm.nnf.rows ∧ e.cols = pm.nnf.cols) _ _
      (fun e y e' _ he hr => (hrow e e' y hr).1 he) _ dst ⟨rfl, rfl⟩ h
  · intro x y hx0 hx hy0 hy
    have hxm : x ∈ forRange 0 pm.nnf.rows := mem_forRange.2 ⟨hx0, hx⟩
    have hym : y ∈ forRange 0 pm.nnf.cols := mem_forRange.2 ⟨hy0, hy⟩
    exact foldlM_establish (fun _ => True)
      (fun y e => ∀ x ∈ forRange 0 pm.nnf.rows, ∃ n p, pm.nnf.coeff x y = some n ∧
        src1.coeff n.1 n.2 = some p ∧ e.coeff x y = some p) _ _
      (fun _ _ _ _ _ => trivial)
      (fun e y' e' b _ hr hb x hx => by
        obtain ⟨n, p, hn, hp, hc⟩ := hb x hx
        exact ⟨n, p, hn, hp, (hrow e e' y' hr).2.1 x b n p hn hp hc⟩)
      (fun e y' e' _ _ hr => (hrow e e' y' hr).2.2) _ dst trivial h y hym x hxm

theorem exSource_wf : exSource.WF := by
  unfold Image.WF
  rfl

theorem exTarget_wf : exTarget.WF := by
  unfold Image.WF
  rfl

theorem exAlloc_wf : exAlloc.WF := allocate_wf exSource_wf exTarget_wf _ _ _

theorem exMatcher_eq :
    construct 3 exSource exTarget (fun _ => (0, 0)) (fun _ => 2147483647) exRng
      = some exMatcher := by
  have h : (construct 3 exSource exTarget (fun _ => (0, 0)) (fun _ => 2147483647) exRng).isSome
      = true := by
    set_option maxRecDepth 100000 in decide
  unfold exMatcher
  cases hc : construct 3 exSource exTarget (fun _ => (0, 0)) (fun _ => 2147483647) exRng with
  | none => rw [hc] at h; exact Bool.noConfusion h
  | some v => rfl

theorem exMatcher_reachable : Reachable 3 exMatcher :=
  Reachable.construct exSource_wf exTarget_wf exMatcher_eq

theorem exMatcher_interior : Interior 3 exMatcher 3 3 := by
  have f := (construct_spec exMatcher_eq).1
  rw [f.interior]
  unfold Interior
  decide

/-! ## The claims -/

/-- C1: when both windows lie inside the images, `distance` returns the sum over the window
offsets `dx, dy ∈ [-R, R]` of the squared Euclidean distance of the two pixels, computed on
integers, and the result is non-negative.  The hypothesis `hfit` states that the largest
possible sum is representable in the 32-bit `int` accumulator; it holds for the instantiation
`Radius = 3`, `N = 3` of `main`. -/
theorem distance_eq_sum_of_squares (R : Nat) (pm : PatchMatcher N) (x0 y0 x1 y1 : Int)
    (hfit : (2 * R + 1) ^ 2 * N * 255 ^ 2 < 2 ^ 31)
    (wf0 : pm.image0.WF) (wf1 : pm.image1.WF) (hin : WindowsInside R pm x0 y0 x1 y1) :
    ∃ d, distance R pm x0 y0 x1 y1 = some d ∧ 0 ≤ d ∧
      d = ∑ dy ∈ Finset.Icc (-(R : Int)) R, ∑ dx ∈ Finset.Icc (-(R : Int)) R,
        ∑ c : Fin N, (((pm.image0.pix (x0 + dx) (y0 + dy) c).val : Int)
          - ((pm.image1.pix (x1 + dx) (y1 + dy) c).val : Int)) ^ 2 :=
  ⟨_, distance_eq_of_fits R pm x0 y0 x1 y1 hfit wf0 wf1 hin,
    specDistance_nonneg R pm.image0 pm.image1 x0 y0 x1 y1, rfl⟩

theorem distance_eq_sum_of_squares_witness :
    ∃ d, distance 3 exAlloc 3 3 4 3 = some d ∧ 0 ≤ d ∧
      d = ∑ dy ∈ Finset.Icc (-((3 : Nat) : Int)) (3 : Nat),
        ∑ dx ∈ Finset.Icc (-((3 : Nat) : Int)) (3 : Nat),
        ∑ c : Fin 3, (((exAlloc.image0.pix (3 + dx) (3 + dy) c).val : Int)
          - ((exAlloc.image1.pix (4 + dx) (3 + dy) c).val : Int)) ^ 2 :=
  distance_eq_sum_of_squares 3 exAlloc 3 3 4 3 (by decide) exSource_wf exTarget_wf
    (by unfold WindowsInside; decide)

/-- C2: at an interior source pixel `(x, y)` and a candidate `(x0, y0)` inside the target
interior, `update` returns; with `d` the candidate's distance and `sc` the stored score, if
`d < sc` the offset of `(x, y)` becomes `(x0, y0)` and its score becomes `d`, otherwise (also
when `d = sc`) the state is unchanged; the score of `(x, y)` afterwards is `min sc d`, and no
other pixel is touched. -/
theorem update_accepts_iff_strictly_better (R : Nat) (pm : PatchMatcher N) (x y x0 y0 : Int)
    (wf : pm.WF) (hxy : Interior R pm x y) (hc : InTarget R pm x0 y0) :
    ∃ d sc pm', distance R pm x y x0 y0 = some d ∧ pm.score.coeff x y = some sc ∧
      update R pm x y x0 y0 = some pm' ∧
      (d < sc → pm'.nnf.coeff x y = some (x0, y0) ∧ pm'.score.coeff x y = some d) ∧
      (¬ d < sc → pm' = pm) ∧
      pm'.score.coeff x y = some (min sc d) ∧
      (∀ x' y', ¬ (x' = x ∧ y' = y) →
        pm'.nnf.coeff x' y' = pm.nnf.coeff x' y' ∧
        pm'.score.coeff x' y' = pm.score.coeff x' y') := by
  obtain ⟨pm', hu⟩ := update_total x0 y0 wf hxy
  have hxy' := hxy
  obtain ⟨a1, a2, a3, a4⟩ := hxy'
  obtain ⟨d, hd⟩ := distance_total R pm x y x0 y0 wf.image0 wf.image1
    ⟨⟨a1, by omega, a3, by omega⟩, ⟨hc.1, by have := hc.2.1; omega, hc.2.2.1,
      by have := hc.2.2.2; omega⟩⟩
  obtain ⟨sc, hsc⟩ := Image.coeff_of_inRange wf.score (x := x) (y := y) (by omega)
    (by rw [wf.score_rows]; omega) (by omega) (by rw [wf.score_cols]; omega)
  have hscore := update_score hu hsc
  have hbest : bestOf R pm x y sc (x0, y0) = min sc d := by
    have hc' := hc
    unfold InTarget at hc'
    unfold bestOf
    rw [if_pos hc']
    simp only [hd]
  rw [hbest] at hscore
  refine ⟨d, sc, pm', hd, hsc, hu, ?_, ?_, hscore, fun x' y' hne => update_other hu hne⟩
  · intro hlt
    rcases update_cases hu with rfl | ⟨_, d', sc', nnf1, score1, hd', hsc', hlt', hn, hs, rfl⟩
    · rw [hsc, min_eq_right (le_of_lt hlt)] at hscore
      simp only [Option.some.injEq] at hscore
      omega
    · rw [hd] at hd'
      simp only [Option.some.injEq] at hd'
      subst hd'
      exact ⟨Image.coeff_setCoeff_self hn, Image.coeff_setCoeff_self hs⟩
  · intro hge
    rcases update_cases hu with rfl | ⟨_, d', sc', nnf1, score1, hd', hsc', hlt', hn, hs, rfl⟩
    · rfl
    · rw [hd] at hd'
      rw [hsc] at hsc'
      simp only [Option.some.injEq] at hd' hsc'
      subst hd' hsc'
      exact absurd hlt' hge

theorem update_accepts_iff_strictly_better_witness :
    exAlloc.WF ∧ Interior 3 exAlloc 3 3 ∧ InTarget 3 exAlloc 4 3 ∧
    ∃ d sc pm', distance 3 exAlloc 3 3 4 3 = some d ∧ exAlloc.score.coeff 3 3 = some sc ∧
      update 3 exAlloc 3 3 4 3 = some pm' ∧
      (d < sc → pm'.nnf.coeff 3 3 = some (4, 3) ∧ pm'.score.coeff 3 3 = some d) ∧
      (¬ d < sc → pm' = exAlloc) ∧
      pm'.score.coeff 3 3 = some (min sc d) ∧
      (∀ x' y', ¬ (x' = 3 ∧ y' = 3) →
        pm'.nnf.coeff x' y' = exAlloc.nnf.coeff x' y' ∧
        pm'.score.coeff x' y' = exAlloc.score.coeff x' y') :=
  ⟨exAlloc_wf, by unfold Interior; decide, by unfold InTarget; decide,
    update_accepts_iff_strictly_better 3 exAlloc 3 3 4 3 exAlloc_wf
      (by unfold Interior; decide) (by unfold InTarget; decide)⟩

/-- C3: a candidate outside the margin-excluded interior of the target is ignored: `update`
returns normally and the state, both grids included, is unchanged. -/
theorem update_rejects_outside (R : Nat) (pm : PatchMatcher N) (x y x0 y0 : Int)
    (h : x0 < R ∨ (pm.image1.rows : Int) - R ≤ x0 ∨ y0 < R ∨ (pm.image1.cols : Int) - R ≤ y0) :
    update R pm x y x0 y0 = some pm := by
  apply update_outside
  unfold InTarget
  omega

theorem update_rejects_outside_witness :
    ((7 : Int) < (3 : Nat) ∨ ((exAlloc.image1.rows : Nat) : Int) - (3 : Nat) ≤ 7 ∨
      (3 : Int) < (3 : Nat) ∨ ((exAlloc.image1.cols : Nat) : Int) - (3 : Nat) ≤ 3) ∧
    update 3 exAlloc 3 3 7 3 = some exAlloc :=
  ⟨by decide, update_rejects_outside 3 exAlloc 3 3 7 3 (by decide)⟩

/-- C4: in every reachable state (after the constructor and any calls of `update`,
`propagate`, `search`, `iterate`), the score stored at an interior source pixel is the
distance, recomputed by `distance`, of the offset stored at that pixel. -/
theorem score_is_distance_of_offset (R : Nat) (pm : PatchMatcher N) (h : Reachable R pm)
    (x y : Int) (hxy : Interior R pm x y) :
    ∃ n sc, pm.nnf.coeff x y = some n ∧ pm.score.coeff x y = some sc ∧
      distance R pm x y n.1 n.2 = some sc :=
  (h.invariants.2 x y hxy).1

theorem score_is_distance_of_offset_witness :
    ∃ n sc, exMatcher.nnf.coeff 3 3 = some n ∧ exMatcher.score.coeff 3 3 = some sc ∧
      distance 3 exMatcher 3 3 n.1 n.2 = some sc :=
  score_is_distance_of_offset 3 exMatcher exMatcher_reachable 3 3 exMatcher_interior

/-- C5: in every reachable state the offset `(x', y')` stored at an interior source pixel
satisfies `R ≤ x' < W1 - R` and `R ≤ y' < H1 - R`.  (The constructor only returns when the
target is at least `(2R+1) × (2R+1)`, see `construct_spec`.) -/
theorem offset_in_target_interior (R : Nat) (pm : PatchMatcher N) (h : Reachable R pm)
    (x y : Int) (hxy : Interior R pm x y) :
    ∃ n, pm.nnf.coeff x y = some n ∧
      (R : Int) ≤ n.1 ∧ n.1 < (pm.image1.rows : Int) - R ∧
      (R : Int) ≤ n.2 ∧ n.2 < (pm.image1.cols : Int) - R :=
  (h.invariants.2 x y hxy).2

theorem offset_in_target_interior_witness :
    ∃ n, exMatcher.nnf.coeff 3 3 = some n ∧
      ((3 : Nat) : Int) ≤ n.1 ∧ n.1 < (exMatcher.image1.rows : Int) - (3 : Nat) ∧
      ((3 : Nat) : Int) ≤ n.2 ∧ n.2 < (exMatcher.image1.cols : Int) - (3 : Nat) :=
  offset_in_target_interior 3 exMatcher exMatcher_reachable 3 3 exMatcher_interior

theorem iterateN_reachable {R : Nat} (hR : 1 ≤ R) {pm : PatchMatcher N} (h : Reachable R pm)
    (i : Nat) : ∃ a, iterateN R i pm = some a ∧ Reachable R a := by
  induction i with
  | zero => exact ⟨pm, rfl, h⟩
  | succ i ih =>
    obtain ⟨a, ha, hra⟩ := ih
    obtain ⟨b, hb⟩ := iterate_total hR hra.invariants.1
    refine ⟨b, ?_, Reachable.iterate hra hb⟩
    show (iterateN R i pm).bind (iterate R) = some b
    rw [ha]
    exact hb

/-- C6: one call of `iterate` never increases the score of any pixel, so the scores after
iteration `i + 1` are at most the scores after iteration `i`; and with `Radius ≥ 1` every
iteration from a reachable state returns. -/
theorem iterate_score_monotone (R : Nat) (pm : PatchMatcher N) (h : Reachable R pm) :
    (∀ pm', iterate R pm = some pm' → ∀ x y sc, pm.score.coeff x y = some sc →
      ∃ sc', pm'.score.coeff x y = some sc' ∧ sc' ≤ sc) ∧
    (∀ i a b, iterateN R i pm = some a → iterateN R (i + 1) pm = some b →
      ∀ x y sc, a.score.coeff x y = some sc →
        ∃ sc', b.score.coeff x y = some sc' ∧ sc' ≤ sc) ∧
    (1 ≤ R → ∀ i, ∃ a, iterateN R i pm = some a) := by
  refine ⟨fun pm' hi => (iterate_steps hi).scoreLE, ?_, ?_⟩
  · intro i a b ha hb
    have hb' : (iterateN R i pm).bind (iterate R) = some b := hb
    rw [ha] at hb'
    exact (iterate_steps hb').scoreLE
  · intro hR i
    obtain ⟨a, ha, _⟩ := iterateN_reachable hR h i
    exact ⟨a, ha⟩

theorem iterate_score_monotone_witness :
    (∀ pm', iterate 3 exMatcher = some pm' → ∀ x y sc, exMatcher.score.coeff x y = some sc →
      ∃ sc', pm'.score.coeff x y = some sc' ∧ sc' ≤ sc) ∧
    (∀ i a b, iterateN 3 i exMatcher = some a → iterateN 3 (i + 1) exMatcher = some b →
      ∀ x y sc, a.score.coeff x y = some sc →
        ∃ sc', b.score.coeff x y = some sc' ∧ sc' ≤ sc) ∧
    (1 ≤ 3 → ∀ i, ∃ a, iterateN 3 i exMatcher = some a) :=
  iterate_score_monotone 3 exMatcher exMatcher_reachable

/-- C7: the constructor's initialisation loop (from the allocated state `pm`) and `iterate`
write no entry of a non-interior pixel: every offset and every score of a pixel that is not
an interior source pixel is the same after the operation as before it. -/
theorem margin_entries_unchanged (R : Nat) (pm pm' : PatchMatcher N)
    (h : iterate R pm = some pm' ∨
      ∃ img0 img1 junkNnf junkScore g, pm = allocate img0 img1 junkNnf junkScore g ∧
        construct R img0 img1 junkNnf junkScore g = some pm')
    (x y : Int) (hm : ¬ Interior R pm x y) :
    pm'.nnf.coeff x y = pm.nnf.coeff x y ∧ pm'.score.coeff x y = pm.score.coeff x y := by
  rcases h with h | ⟨img0, img1, junkNnf, junkScore, g, rfl, h⟩
  · exact (iterate_steps h).sameOutside x y hm
  · obtain ⟨f, hout, _, _⟩ := construct_spec h
    exact hout x y (fun hc => hm ((f.interior R x y).1 hc))

theorem margin_entries_unchanged_witness :
    (∃ pm', iterate 3 exMatcher = some pm' ∧
      pm'.nnf.coeff 2 3 = exMatcher.nnf.coeff 2 3 ∧
      pm'.score.coeff 2 3 = exMatcher.score.coeff 2 3) ∧
    (exMatcher.nnf.coeff 2 3 = exAlloc.nnf.coeff 2 3 ∧
      exMatcher.score.coeff 2 3 = exAlloc.score.coeff 2 3) := by
  obtain ⟨pm', hi⟩ := iterate_total (R := 3) (by decide) exMatcher_reachable.invariants.1
  exact ⟨⟨pm', hi, margin_entries_unchanged 3 exMatcher pm' (Or.inl hi) 2 3
      (by rw [(construct_spec exMatcher_eq).1.interior]; unfold Interior; decide)⟩,
    margin_entries_unchanged 3 exAlloc exMatcher
      (Or.inr ⟨_, _, _, _, _, rfl, exMatcher_eq⟩) 2 3 (by unfold Interior; decide)⟩

/-- C8 (what the code does): on the example images, with `Radius = 3`, three iterations and
freshly allocated grids that read as zero, the rendered output has the source's size, but its
margin pixel `(0, 0)` is not left at its default value 0: it is assigned the target pixel at
the never-initialised offset `(0, 0)`, whose value is 200. -/
theorem render_assigns_margin_pixels :
    (main 3 3 exSource exTarget (fun _ => (0, 0)) (fun _ => 0) (fun _ => gray 0) exRng).bind
      (fun dst => (dst.coeff 0 0).map (fun p => (dst.rows, dst.cols, (p 0).val)))
      = some (7, 7, 200) := by
  set_option maxRecDepth 1000000 in decide

/-- C9: at an interior pixel and with `M = max(W1, H1) ≥ 1`, `search` returns, and it is the
sequence of `⌊log₂ M⌋ + 1` rounds of radii `M >> 0, M >> 1, ..., 1`, each round drawing
`ox, oy ∈ [-r, r]` and proposing the single candidate `(x' + ox, y' + oy)` through `update`,
where `(x', y')` is the offset stored at `(x, y)` on entry. -/
theorem search_rounds (R : Nat) (pm : PatchMatcher N) (x y : Int) (wf : pm.WF)
    (hxy : Interior R pm x y) (hM : 1 ≤ max pm.image1.rows pm.image1.cols) :
    ∃ n pm', pm.nnf.coeff x y = some n ∧ search R pm x y = some pm' ∧
      search R pm x y
        = ((List.range (Nat.log2 (max pm.image1.rows pm.image1.cols) + 1)).map
            (fun i => max pm.image1.rows pm.image1.cols >>> i)).foldlM
              (searchRound R x y n.1 n.2) pm ∧
      max pm.image1.rows pm.image1.cols
        >>> Nat.log2 (max pm.image1.rows pm.image1.cols) = 1 ∧
      ∀ (q : PatchMatcher N) (r : Nat), ∃ ox oy g,
        -(r : Int) ≤ ox ∧ ox ≤ r ∧ -(r : Int) ≤ oy ∧ oy ≤ r ∧
        searchRound R x y n.1 n.2 q r
          = update R { q with rng := g } x y (n.1 + ox) (n.2 + oy) := by
  obtain ⟨pm', h⟩ := search_total wf hxy
  have h' := h
  unfold search at h'
  simp only [bind, Option.bind_eq_some] at h'
  obtain ⟨n, hn, hloop⟩ := h'
  refine ⟨n, pm', hn, h, ?_, shiftRight_log2 hM, fun q r => searchRound_candidate R x y n.1 n.2 q r⟩
  rw [h, ← hloop]
  exact searchLoop_eq_rounds R x y n.1 n.2 _ _ pm hM (le_refl _)

theorem search_rounds_witness :
    ∃ n pm', exAlloc.nnf.coeff 3 3 = some n ∧ search 3 exAlloc 3 3 = some pm' ∧
      search 3 exAlloc 3 3
        = ((List.range (Nat.log2 (max exAlloc.image1.rows exAlloc.image1.cols) + 1)).map
            (fun i => max exAlloc.image1.rows exAlloc.image1.cols >>> i)).foldlM
              (searchRound 3 3 3 n.1 n.2) exAlloc ∧
      max exAlloc.image1.rows exAlloc.image1.cols
        >>> Nat.log2 (max exAlloc.image1.rows exAlloc.image1.cols) = 1 ∧
      ∀ (q : PatchMatcher 3) (r : Nat), ∃ ox oy g,
        -(r : Int) ≤ ox ∧ ox ≤ r ∧ -(r : Int) ≤ oy ∧ oy ≤ r ∧
        searchRound 3 3 3 n.1 n.2 q r
          = update 3 { q with rng := g } 3 3 (n.1 + ox) (n.2 + oy) :=
  search_rounds 3 exAlloc 3 3 exAlloc_wf (by unfold Interior; decide) (by decide)

/-- C10: at an interior pixel, for `D = ±1` (and `Radius ≥ 1`), `propagate<D>` is
`update(x, y, nnf(x+D, y).x - D, nnf(x+D, y).y)` followed by
`update(x, y, nnf(x, y+D).x, nnf(x, y+D).y - D)`, both neighbours read in the state on
entry; the score of `(x, y)` afterwards is the minimum of the old score and of the distances
of those of the two candidates that lie in the target interior. -/
theorem propagate_is_two_updates (R : Nat) (D : Int) (pm : PatchMatcher N) (x y : Int)
    (hR : 1 ≤ R) (hD : D = 1 ∨ D = -1) (wf : pm.WF) (hxy : Interior R pm x y) :
    ∃ a b pm1 pm2 sc, pm.nnf.coeff (x + D) y = some a ∧ pm.nnf.coeff x (y + D) = some b ∧
      update R pm x y (a.1 - D) a.2 = some pm1 ∧
      update R pm1 x y b.1 (b.2 - D) = some pm2 ∧
      propagate R D pm x y = some pm2 ∧
      pm.score.coeff x y = some sc ∧
      pm2.score.coeff x y
        = some (bestOf R pm x y (bestOf R pm x y sc (a.1 - D, a.2)) (b.1, b.2 - D)) := by
  obtain ⟨a, b, pm1, pm2, ha, hb, h1, h2, hp⟩ := propagate_updates hR hD wf hxy
  have hxy' := hxy
  obtain ⟨a1, a2, a3, a4⟩ := hxy'
  obtain ⟨sc, hsc⟩ := Image.coeff_of_inRange wf.score (x := x) (y := y) (by omega)
    (by rw [wf.score_rows]; omega) (by omega) (by rw [wf.score_cols]; omega)
  have s1 := update_score h1 hsc
  have s2 := update_score h2 s1
  rw [bestOf_congr R (update_frame h1)] at s2
  exact ⟨a, b, pm1, pm2, sc, ha, hb, h1, h2, hp, hsc, s2⟩

theorem propagate_is_two_updates_witness :
    ∃ a b pm1 pm2 sc, exAlloc.nnf.coeff (3 + (-1)) 3 = some a ∧
      exAlloc.nnf.coeff 3 (3 + (-1)) = some b ∧
      update 3 exAlloc 3 3 (a.1 - (-1)) a.2 = some pm1 ∧
      update 3 pm1 3 3 b.1 (b.2 - (-1)) = some pm2 ∧
      propagate 3 (-1) exAlloc 3 3 = some pm2 ∧
      exAlloc.score.coeff 3 3 = some sc ∧
      pm2.score.coeff 3 3
        = some (bestOf 3 exAlloc 3 3 (bestOf 3 exAlloc 3 3 sc (a.1 - (-1), a.2)) (b.1, b.2 - (-1))) :=
  propagate_is_two_updates 3 (-1) exAlloc 3 3 (by decide) (Or.inr rfl) exAlloc_wf
    (by unfold Interior; decide)

/-! ## Non-negative distances and exact matches -/

/-- A loop that returns has run its body successfully on every element. -/
theorem foldlM_some_step {σ α : Type} (f : σ → α → Option σ) (l : List α) :
    ∀ s s', l.foldlM f s = some s' → ∀ a ∈ l, ∃ t t', f t a = some t' := by
  induction l with
  | nil =>
    intro s s' _ a ha
    exact absurd ha (List.not_mem_nil _)
  | cons b l ih =>
    intro s s' h a ha
    simp only [List.foldlM_cons, bind, Option.bind_eq_some] at h
    obtain ⟨s1, h1, h2⟩ := h
    rcases List.mem_cons.1 ha with rfl | ha'
    · exact ⟨s, s1, h1⟩
    · exact ih s1 s' h2 a ha'

/-- A call of `distance` that returns has read both complete windows: they lie inside the
images. -/
theorem windowsInside_of_distance {R : Nat} {pm : PatchMatcher N} {x0 y0 x1 y1 d : Int}
    (h : distance R pm x0 y0 x1 y1 = some d) : WindowsInside R pm x0 y0 x1 y1 := by
  unfold distance at h
  have hread : ∀ dy ∈ forRange (-(R : Int)) ((R : Int) + 1),
      ∀ dx ∈ forRange (-(R : Int)) ((R : Int) + 1),
      (0 ≤ x0 + dx ∧ x0 + dx < pm.image0.rows ∧ 0 ≤ y0 + dy ∧ y0 + dy < pm.image0.cols) ∧
      (0 ≤ x1 + dx ∧ x1 + dx < pm.image1.rows ∧ 0 ≤ y1 + dy ∧ y1 + dy < pm.image1.cols) := by
    intro dy hdy dx hdx
    obtain ⟨t, t', ht⟩ := foldlM_some_step _ _ _ _ h dy hdy
    obtain ⟨u, u', hu⟩ := foldlM_some_step _ _ _ _ ht dx hdx
    unfold distanceStep at hu
    simp only [bind, Option.bind_eq_some] at hu
    obtain ⟨v0, hv0, v1, hv1, _⟩ := hu
    exact ⟨Image.inRange_of_coeff hv0, Image.inRange_of_coeff hv1⟩
  have hlo : -(R : Int) ∈ forRange (-(R : Int)) ((R : Int) + 1) := mem_forRange.2 (by omega)
  have hhi : (R : Int) ∈ forRange (-(R : Int)) ((R : Int) + 1) := mem_forRange.2 (by omega)
  obtain ⟨⟨a1, _, a3, _⟩, ⟨b1, _, b3, _⟩⟩ := hread _ hlo _ hlo
  obtain ⟨⟨_, a2, _, a4⟩, ⟨_, b2, _, b4⟩⟩ := hread _ hhi _ hhi
  exact ⟨⟨by omega, by omega, by omega, by omega⟩, ⟨by omega, by omega, by omega, by omega⟩⟩

/-- While the largest possible sum fits in an `int`, every value returned by `distance` is
non-negative. -/
theorem distance_nonneg {R : Nat} {pm : PatchMatcher N} {x0 y0 x1 y1 d : Int}
    (hfit : (2 * R + 1) ^ 2 * N * 255 ^ 2 < 2 ^ 31) (wf0 : pm.image0.WF) (wf1 : pm.image1.WF)
    (h : distance R pm x0 y0 x1 y1 = some d) : 0 ≤ d := by
  have hin := windowsInside_of_distance h
  rw [distance_eq_of_fits R pm x0 y0 x1 y1 hfit wf0 wf1 hin] at h
  simp only [Option.some.injEq] at h
  rw [← h]
  exact specDistance_nonneg R pm.image0 pm.image1 x0 y0 x1 y1

theorem sqDist_self (a : Pixel N) : sqDist a a = 0 := by
  unfold sqDist
  apply Finset.sum_eq_zero
  intro c _
  simp

/-- Two windows holding the same pixels have distance 0. -/
theorem distance_eq_zero_of_same_patch {R : Nat} {pm : PatchMatcher N} {x0 y0 x1 y1 : Int}
    (hfit : (2 * R + 1) ^ 2 * N * 255 ^ 2 < 2 ^ 31) (wf0 : pm.image0.WF) (wf1 : pm.image1.WF)
    (hin : WindowsInside R pm x0 y0 x1 y1)
    (hsame : ∀ dx dy : Int, -(R : Int) ≤ dx → dx ≤ R → -(R : Int) ≤ dy → dy ≤ R →
      pm.image0.pix (x0 + dx) (y0 + dy) = pm.image1.pix (x1 + dx) (y1 + dy)) :
    distance R pm x0 y0 x1 y1 = some 0 := by
  rw [distance_eq_of_fits R pm x0 y0 x1 y1 hfit wf0 wf1 hin]
  congr 1
  unfold specDistance
  apply Finset.sum_eq_zero
  intro dy hdy
  apply Finset.sum_eq_zero
  intro dx hdx
  rw [Finset.mem_Icc] at hdy hdx
  rw [hsame dx dy hdx.1 hdx.2 hdy.1 hdy.2]
  exact sqDist_self _

/-- With the same image as source and target, a patch matches itself exactly. -/
theorem distance_self {R : Nat} {pm : PatchMatcher N} {x y : Int}
    (hfit : (2 * R + 1) ^ 2 * N * 255 ^ 2 < 2 ^ 31) (wf0 : pm.image0.WF)
    (hsame : pm.image1 = pm.image0) (hxy : Interior R pm x y) :
    distance R pm x y x y = some 0 := by
  obtain ⟨a1, a2, a3, a4⟩ := hxy
  apply distance_eq_zero_of_same_patch hfit wf0 (hsame ▸ wf0)
  · unfold WindowsInside
    rw [hsame]
    omega
  · intro dx dy _ _ _ _
    rw [hsame]

/-! ## A zero score is final -/

theorem update_zero_fixed {R : Nat} {pm pm' : PatchMatcher N} {x y x0 y0 : Int}
    (hfit : (2 * R + 1) ^ 2 * N * 255 ^ 2 < 2 ^ 31) (wf0 : pm.image0.WF) (wf1 : pm.image1.WF)
    (h0 : pm.score.coeff x y = some 0) (hu : update R pm x y x0 y0 = some pm') : pm' = pm := by
  rcases update_cases hu with h | ⟨_, d, sc, nnf1, score1, hd, hsc, hlt, _, _, _⟩
  · exact h
  · rw [h0] at hsc
    simp only [Option.some.injEq] at hsc
    have := distance_nonneg hfit wf0 wf1 hd
    omega

theorem Steps.zero_fixed {R : Nat} {A : Int → Int → Prop} {a b : PatchMatcher N}
    (hfit : (2 * R + 1) ^ 2 * N * 255 ^ 2 < 2 ^ 31) (wf0 : a.image0.WF) (wf1 : a.image1.WF)
    (h : Steps R A a b) {x y : Int} (h0 : a.score.coeff x y = some 0) :
    b.nnf.coeff x y = a.nnf.coeff x y ∧ b.score.coeff x y = some 0 := by
  induction h with
  | refl => exact ⟨rfl, h0⟩
  | @update pm1 pm2 x' y' x0 y0 hs _ hu ih =>
    by_cases he : x = x' ∧ y = y'
    · obtain ⟨rfl, rfl⟩ := he
      have f := hs.frame
      have := update_zero_fixed hfit (f.image0 ▸ wf0) (f.image1 ▸ wf1) ih.2 hu
      rw [this]
      exact ih
    · obtain ⟨e1, e2⟩ := update_other hu he
      exact ⟨e1.trans ih.1, e2.trans ih.2⟩
  | draw g _ ih => exact ih

theorem iterateN_steps {R : Nat} (n : Nat) :
    ∀ {pm pm' : PatchMatcher N}, iterateN R n pm = some pm' → Steps R (fun _ _ => True) pm pm' := by
  induction n with
  | zero =>
    intro pm pm' h
    simp only [iterateN, Option.some.injEq] at h
    exact h ▸ Steps.refl _
  | succ n ih =>
    intro pm pm' h
    simp only [iterateN, Option.bind_eq_some] at h
    obtain ⟨a, ha, hb⟩ := h
    exact (ih ha).append ((iterate_steps hb).mono (fun _ _ _ => trivial))

/-! ## The value of `bestOf` -/

theorem bestOf_nonneg {R : Nat} {pm : PatchMatcher N} {x y sc : Int} (c : Int × Int)
    (hfit : (2 * R + 1) ^ 2 * N * 255 ^ 2 < 2 ^ 31) (wf0 : pm.image0.WF) (wf1 : pm.image1.WF)
    (hsc : 0 ≤ sc) : 0 ≤ bestOf R pm x y sc c := by
  unfold bestOf
  split
  · split
    · rename_i d hd
      exact le_min hsc (distance_nonneg hfit wf0 wf1 hd)
    · exact hsc
  · exact hsc

theorem bestOf_zero {R : Nat} {pm : PatchMatcher N} {x y : Int} (c : Int × Int)
    (hfit : (2 * R + 1) ^ 2 * N * 255 ^ 2 < 2 ^ 31) (wf0 : pm.image0.WF) (wf1 : pm.image1.WF) :
    bestOf R pm x y 0 c = 0 :=
  le_antisymm
    (by
      unfold bestOf
      split
      · split
        · exact min_le_left _ _
        · exact le_refl _
      · exact le_refl _)
    (bestOf_nonneg c hfit wf0 wf1 (le_refl _))

theorem bestOf_self {R : Nat} {pm : PatchMatcher N} {x y sc : Int}
    (hfit : (2 * R + 1) ^ 2 * N * 255 ^ 2 < 2 ^ 31) (wf0 : pm.image0.WF)
    (hsame : pm.image1 = pm.image0) (hxy : Interior R pm x y) (hsc : 0 ≤ sc) :
    bestOf R pm x y sc (x, y) = 0 := by
  have hg : (R : Int) ≤ x ∧ x < (pm.image1.rows : Int) - R ∧
      (R : Int) ≤ y ∧ y < (pm.image1.cols : Int) - R := by
    rw [hsame]
    exact hxy
  unfold bestOf
  rw [if_pos hg]
  simp only [distance_self hfit wf0 hsame hxy]
  exact min_eq_right hsc

/-! ## No overflow in `distance` -/

theorem distanceStepChecked_eq (pm : PatchMatcher N) (x0 y0 x1 y1 dy dx s : Int)
    (v0 v1 : Pixel N) (h0 : pm.image0.coeff (x0 + dx) (y0 + dy) = some v0)
    (h1 : pm.image1.coeff (x1 + dx) (y1 + dy) = some v1)
    (hs : 0 ≤ s) (hfit : s + sqDist v0 v1 < 2147483648) :
    distanceStepChecked pm x0 y0 x1 y1 dy s dx = some (s + sqDist v0 v1) := by
  unfold distanceStepChecked
  simp only [h0, h1, bind, Option.some_bind, squaredNorm_sub]
  have h := sqDist_nonneg v0 v1
  rw [if_pos ⟨by omega, hfit⟩]
  rfl

/-- While the largest possible sum fits in an `int`, the checked loops never meet an overflow
and return the exact sum. -/
theorem distanceChecked_eq_of_fits (R : Nat) (pm : PatchMatcher N) (x0 y0 x1 y1 : Int)
    (hfit : (2 * R + 1) ^ 2 * N * 255 ^ 2 < 2 ^ 31)
    (wf0 : pm.image0.WF) (wf1 : pm.image1.WF) (hin : WindowsInside R pm x0 y0 x1 y1) :
    distanceChecked R pm x0 y0 x1 y1
      = some (specDistance R pm.image0 pm.image1 x0 y0 x1 y1) := by
  have hle := specDistance_le R pm.image0 pm.image1 x0 y0 x1 y1
  have hbound : (2 * (R : Int) + 1) * ((2 * (R : Int) + 1) * ((N : Int) * 65025)) < 2147483648 := by
    have : (((2 * R + 1) ^ 2 * N * 255 ^ 2 : Nat) : Int) < ((2 ^ 31 : Nat) : Int) :=
      Int.ofNat_lt.2 hfit
    push_cast at this
    nlinarith
  obtain ⟨⟨a1, a2, a3, a4⟩, ⟨b1, b2, b3, b4⟩⟩ := hin
  have hspec : specDistance R pm.image0 pm.image1 x0 y0 x1 y1
      = ((forRange (-(R : Int)) ((R : Int) + 1)).map
          (fun dy => rowSum R pm.image0 pm.image1 x0 y0 x1 y1 dy)).sum := by
    rw [sum_offsets]; rfl
  unfold distanceChecked
  have key := foldlM_accumulate
    (fun s dy => (forRange (-(R : Int)) ((R : Int) + 1)).foldlM
      (distanceStepChecked pm x0 y0 x1 y1 dy) s)
    (fun dy => rowSum R pm.image0 pm.image1 x0 y0 x1 y1 dy)
    (forRange (-(R : Int)) ((R : Int) + 1))
    (fun _ _ => rowSum_nonneg R pm.image0 pm.image1 x0 y0 x1 y1 _)
    (by
      intro dy hdy s hs hsfit
      have hdy' := mem_forRange.1 hdy
      have hrow : rowSum R pm.image0 pm.image1 x0 y0 x1 y1 dy
          = ((forRange (-(R : Int)) ((R : Int) + 1)).map
              (fun dx => sqDist (pm.image0.pix (x0 + dx) (y0 + dy))
                (pm.image1.pix (x1 + dx) (y1 + dy)))).sum := by
        rw [sum_offsets]; rfl
      beta_reduce at hsfit ⊢
      rw [hrow] at hsfit ⊢
      apply foldlM_accumulate _ _ _ (fun _ _ => sqDist_nonneg _ _) _ s hs hsfit
      intro dx hdx t ht htfit
      have hdx' := mem_forRange.1 hdx
      obtain ⟨v0, hv0⟩ := Image.coeff_of_inRange wf0 (x := x0 + dx) (y := y0 + dy)
        (by omega) (by omega) (by omega) (by omega)
      obtain ⟨v1, hv1⟩ := Image.coeff_of_inRange wf1 (x := x1 + dx) (y := y1 + dy)
        (by omega) (by omega) (by omega) (by omega)
      have p0 : pm.image0.pix (x0 + dx) (y0 + dy) = v0 := by simp [Image.pix, hv0]
      have p1 : pm.image1.pix (x1 + dx) (y1 + dy) = v1 := by simp [Image.pix, hv1]
      simp only [p0, p1] at htfit ⊢
      exact distanceStepChecked_eq pm x0 y0 x1 y1 dy dx t v0 v1 hv0 hv1 ht htfit)
    0 (le_refl _) (by rw [← hspec]; omega)
  rw [key, ← hspec]
  simp

/-! ## The constructor on a source without interior -/

theorem forRange_eq_nil {lo hi : Int} (h : hi ≤ lo) : forRange lo hi = [] := by
  unfold forRange
  have : (hi - lo).toNat = 0 := by omega
  rw [this]
  rfl

theorem foldlM_const_some {σ α : Type} (f : σ → α → Option σ) (l : List α) (s : σ)
    (h : ∀ a ∈ l, f s a = some s) : l.foldlM f s = some s := by
  induction l with
  | nil => rfl
  | cons a l ih =>
    rw [List.foldlM_cons, h a (List.mem_cons_self _ _)]
    exact ih (fun b hb => h b (List.mem_cons_of_mem _ hb))

/-- When the source has no interior pixel the loops of the constructor have nothing to do. -/
theorem construct_small_source (R : Nat) (img0 img1 : Image (Pixel N))
    (junkNnf : Nat → Int × Int) (junkScore : Nat → Int) (g : Rng)
    (hsmall : img0.rows < 2 * R + 1 ∨ img0.cols < 2 * R + 1)
    (hrows : 2 * R + 1 ≤ img1.rows) (hcols : 2 * R + 1 ≤ img1.cols) :
    construct R img0 img1 junkNnf junkScore g
      = some (allocate img0 img1 junkNnf junkScore g) := by
  have h0 : UniformInt.new R ((img1.rows : Int) - R - 1) = some ⟨R, (img1.rows : Int) - R - 1⟩ := by
    unfold UniformInt.new
    rw [if_pos (by omega)]
  have h1 : UniformInt.new R ((img1.cols : Int) - R - 1) = some ⟨R, (img1.cols : Int) - R - 1⟩ := by
    unfold UniformInt.new
    rw [if_pos (by omega)]
  unfold construct
  simp only [h0, h1, bind, Option.some_bind]
  rcases hsmall with h | h
  · have e := @forRange_eq_nil (R : Int) ((img0.rows : Int) - R) (by omega)
    apply foldlM_const_some
    intro y _
    rw [e]
    rfl
  · have e := @forRange_eq_nil (R : Int) ((img0.cols : Int) - R) (by omega)
    rw [e]
    rfl

theorem exZero_wf : exZero.WF := allocate_wf exSource_wf exTarget_wf _ _ _

theorem exIdentity_wf : exIdentity.WF := allocate_wf exTarget_wf exTarget_wf _ _ _

/-- C11: with `Radius ≥ 1`, well-formed image buffers and a target of at least
`(2R+1) × (2R+1)` pixels (in particular when all dimensions exceed `2R+1`), the constructor
followed by any number of calls of `iterate` returns: no read or write of the images, of
`nnf` or of `score` leaves its grid (every such access would make the result `none`). -/
theorem no_access_out_of_range (R : Nat) (img0 img1 : Image (Pixel N))
    (junkNnf : Nat → Int × Int) (junkScore : Nat → Int) (g : Rng)
    (hR : 1 ≤ R) (wf0 : img0.WF) (wf1 : img1.WF)
    (hrows : 2 * R + 1 ≤ img1.rows) (hcols : 2 * R + 1 ≤ img1.cols) (n : Nat) :
    ∃ pm pm', construct R img0 img1 junkNnf junkScore g = some pm ∧
      iterateN R n pm = some pm' := by
  obtain ⟨pm, hpm⟩ := construct_total R wf0 wf1 hrows hcols junkNnf junkScore g
  obtain ⟨pm', hpm', _⟩ := iterateN_reachable hR (Reachable.construct wf0 wf1 hpm) n
  exact ⟨pm, pm', hpm, hpm'⟩

theorem no_access_out_of_range_witness :
    ∃ pm pm', construct 3 exSource exTarget (fun _ => (0, 0)) (fun _ => 0) exRng = some pm ∧
      iterateN 3 3 pm = some pm' :=
  no_access_out_of_range 3 exSource exTarget (fun _ => (0, 0)) (fun _ => 0) exRng (by decide)
    exSource_wf exTarget_wf (by decide) (by decide) 3

/-- C15 (what the code does): the constructor has no size check; on a 2 × 2 source with
radius 3 it returns a matcher. -/
theorem construct_accepts_tiny_source :
    (construct 3 tinySource exTarget (fun _ => (0, 0)) (fun _ => 0) exRng).isSome = true := by
  decide

/-- C15 (amended): when a source dimension is smaller than `2R+1` and the target is at least
`(2R+1) × (2R+1)`, the constructor returns the matcher as allocated: both loops are empty and
no entry of `nnf` or `score` is written. -/
theorem construct_without_interior (R : Nat) (img0 img1 : Image (Pixel N))
    (junkNnf : Nat → Int × Int) (junkScore : Nat → Int) (g : Rng)
    (hsmall : img0.rows < 2 * R + 1 ∨ img0.cols < 2 * R + 1)
    (hrows : 2 * R + 1 ≤ img1.rows) (hcols : 2 * R + 1 ≤ img1.cols) :
    construct R img0 img1 junkNnf junkScore g
      = some (allocate img0 img1 junkNnf junkScore g) :=
  construct_small_source R img0 img1 junkNnf junkScore g hsmall hrows hcols

theorem construct_without_interior_witness :
    construct 3 tinySource exTarget (fun _ => (0, 0)) (fun _ => 0) exRng
      = some (allocate tinySource exTarget (fun _ => (0, 0)) (fun _ => 0) exRng) :=
  construct_without_interior 3 tinySource exTarget (fun _ => (0, 0)) (fun _ => 0) exRng
    (Or.inl (by decide)) (by decide) (by decide)

/-- C17: for the instantiation of `main` (three 8-bit channels, radius 3) and windows inside
the images, `distance` returns the exact integer sum of the squared channel differences; the
value lies between 0 and `49 * 3 * 255^2 = 9558675 < 2^31`, and the same loops run with
checked arithmetic return the same value, so no accumulation overflows the `int`. -/
theorem distance_fits_int (pm : PatchMatcher 3) (x0 y0 x1 y1 : Int)
    (wf0 : pm.image0.WF) (wf1 : pm.image1.WF) (hin : WindowsInside 3 pm x0 y0 x1 y1) :
    ∃ d, distance 3 pm x0 y0 x1 y1 = some d ∧ distanceChecked 3 pm x0 y0 x1 y1 = some d ∧
      0 ≤ d ∧ d ≤ 49 * 3 * 255 ^ 2 ∧ (49 * 3 * 255 ^ 2 : Int) = 9558675 ∧
      (9558675 : Int) < 2 ^ 31 ∧
      d = ∑ dy ∈ Finset.Icc (-3 : Int) 3, ∑ dx ∈ Finset.Icc (-3 : Int) 3,
        ∑ c : Fin 3, (((pm.image0.pix (x0 + dx) (y0 + dy) c).val : Int)
          - ((pm.image1.pix (x1 + dx) (y1 + dy) c).val : Int)) ^ 2 := by
  have hfit : (2 * 3 + 1) ^ 2 * 3 * 255 ^ 2 < 2 ^ 31 := by decide
  have hle := specDistance_le 3 pm.image0 pm.image1 x0 y0 x1 y1
  refine ⟨_, distance_eq_of_fits 3 pm x0 y0 x1 y1 hfit wf0 wf1 hin,
    distanceChecked_eq_of_fits 3 pm x0 y0 x1 y1 hfit wf0 wf1 hin,
    specDistance_nonneg 3 pm.image0 pm.image1 x0 y0 x1 y1, ?_, by norm_num, by norm_num, rfl⟩
  norm_num at hle ⊢
  exact hle

theorem distance_fits_int_witness :
    ∃ d, distance 3 exAlloc 3 3 4 3 = some d ∧ distanceChecked 3 exAlloc 3 3 4 3 = some d ∧
      0 ≤ d ∧ d ≤ 49 * 3 * 255 ^ 2 ∧ (49 * 3 * 255 ^ 2 : Int) = 9558675 ∧
      (9558675 : Int) < 2 ^ 31 ∧
      d = ∑ dy ∈ Finset.Icc (-3 : Int) 3, ∑ dx ∈ Finset.Icc (-3 : Int) 3,
        ∑ c : Fin 3, (((exAlloc.image0.pix (3 + dx) (3 + dy) c).val : Int)
          - ((exAlloc.image1.pix (4 + dx) (3 + dy) c).val : Int)) ^ 2 :=
  distance_fits_int exAlloc 3 3 4 3 exSource_wf exTarget_wf (by unfold WindowsInside; decide)

/-- C18: a decoded buffer of width `W = d.x` and height `H = d.y` is loaded as a grid with
`rows() = W` and `cols() = H` whose element `(x, y)` is the buffer pixel at index `y * W + x`;
`saveImage` hands the writer the width `rows()`, the height `cols()` and a buffer whose pixel
at index `y * rows() + x` is the element `(x, y)`; saving a loaded image gives back the
decoded width, height and buffer. -/
theorem load_save_keep_scanline_order (d : Decoded N) (hlen : d.buf.length = d.x * d.y) :
    ∃ img, loadImage (some d) = some img ∧ img.rows = d.x ∧ img.cols = d.y ∧
      (∀ x y : Nat, x < d.x → y < d.y →
        ∃ p, d.buf[y * d.x + x]? = some p ∧ img.coeff x y = some p) ∧
      (saveImage img).x = img.rows ∧ (saveImage img).y = img.cols ∧
      (∀ x y : Nat, x < img.rows → y < img.cols →
        (saveImage img).buf[y * img.rows + x]? = img.coeff x y) ∧
      saveImage img = d := by
  have hcoeff : ∀ x y : Nat, x < d.x → y < d.y →
      (Image.mk d.x d.y d.buf).coeff x y = d.buf[y * d.x + x]? := by
    intro x y hx hy
    unfold Image.coeff Image.index
    rw [if_pos ⟨by omega, by exact_mod_cast hx, by omega, by exact_mod_cast hy⟩]
    congr 1
    have : ((x : Int) + (y : Int) * (d.x : Int)) = ((y * d.x + x : Nat) : Int) := by
      push_cast; ring
    rw [this, Int.toNat_ofNat]
  refine ⟨Image.mk d.x d.y d.buf, rfl, rfl, rfl, ?_, rfl, rfl, ?_, rfl⟩
  · intro x y hx hy
    have hlt : y * d.x + x < d.buf.length := by
      rw [hlen]
      calc y * d.x + x < y * d.x + d.x := by omega
        _ = (y + 1) * d.x := by ring
        _ ≤ d.y * d.x := Nat.mul_le_mul_right _ hy
        _ = d.x * d.y := Nat.mul_comm _ _
    exact ⟨d.buf[y * d.x + x], List.getElem?_eq_getElem hlt,
      (hcoeff x y hx hy).trans (List.getElem?_eq_getElem hlt)⟩
  · intro x y hx hy
    exact (hcoeff x y hx hy).symm

theorem load_save_keep_scanline_order_witness :
    ∃ img, loadImage (some exDecoded) = some img ∧ img.rows = exDecoded.x ∧
      img.cols = exDecoded.y ∧
      (∀ x y : Nat, x < exDecoded.x → y < exDecoded.y →
        ∃ p, exDecoded.buf[y * exDecoded.x + x]? = some p ∧ img.coeff x y = some p) ∧
      (saveImage img).x = img.rows ∧ (saveImage img).y = img.cols ∧
      (∀ x y : Nat, x < img.rows → y < img.cols →
        (saveImage img).buf[y * img.rows + x]? = img.coeff x y) ∧
      saveImage img = exDecoded :=
  load_save_keep_scanline_order exDecoded (by decide)

/-- C19: while the largest possible sum fits in an `int` (as for `main`), a score 0 stored at
`(x, y)` is final: every call `update(x, y, ·, ·)` that returns leaves the whole state
unchanged, and every call of `propagate`, `search` or `iterate`, at any pixel and for any
random stream, leaves the offset and the score of `(x, y)` as they were. -/
theorem zero_score_is_final (R : Nat) (pm : PatchMatcher N) (x y : Int)
    (hfit : (2 * R + 1) ^ 2 * N * 255 ^ 2 < 2 ^ 31) (wf0 : pm.image0.WF) (wf1 : pm.image1.WF)
    (h0 : pm.score.coeff x y = some 0) :
    (∀ x0 y0 pm', update R pm x y x0 y0 = some pm' → pm' = pm) ∧
    (∀ pm', ((∃ D x' y', propagate R D pm x' y' = some pm') ∨
        (∃ x' y', search R pm x' y' = some pm') ∨ iterate R pm = some pm') →
      pm'.nnf.coeff x y = pm.nnf.coeff x y ∧ pm'.score.coeff x y = some 0) := by
  refine ⟨fun x0 y0 pm' hu => update_zero_fixed hfit wf0 wf1 h0 hu, ?_⟩
  intro pm' h
  have hs : Steps R (fun _ _ => True) pm pm' := by
    rcases h with ⟨D, x', y', h⟩ | ⟨x', y', h⟩ | h
    · exact propagate_steps trivial h
    · exact search_steps trivial h
    · exact (iterate_steps h).mono (fun _ _ _ => trivial)
  exact hs.zero_fixed hfit wf0 wf1 h0

theorem zero_score_is_final_witness :
    exZero.score.coeff 3 3 = some 0 ∧
    (∀ x0 y0 pm', update 3 exZero 3 3 x0 y0 = some pm' → pm' = exZero) ∧
    (∀ pm', ((∃ D x' y', propagate 3 D exZero x' y' = some pm') ∨
        (∃ x' y', search 3 exZero x' y' = some pm') ∨ iterate 3 exZero = some pm') →
      pm'.nnf.coeff 3 3 = exZero.nnf.coeff 3 3 ∧ pm'.score.coeff 3 3 = some 0) :=
  ⟨by decide, zero_score_is_final 3 exZero 3 3 (by decide) exSource_wf exTarget_wf (by decide)⟩

/-- C20: with the same image as source and target (and `Radius ≥ 1`, sums fitting in an
`int`), at an interior pixel `(x, y)` whose stored score is non-negative, if the neighbour
`(x+D, y)` or the neighbour `(x, y+D)` stores its own coordinate as its offset, then
`propagate<D>(x, y)` returns and the score stored at `(x, y)` afterwards is 0. -/
theorem propagate_spreads_self_match (R : Nat) (D : Int) (pm : PatchMatcher N) (x y sc : Int)
    (hfit : (2 * R + 1) ^ 2 * N * 255 ^ 2 < 2 ^ 31) (hR : 1 ≤ R) (hD : D = 1 ∨ D = -1)
    (wf : pm.WF) (hsame : pm.image1 = pm.image0) (hxy : Interior R pm x y)
    (hsc : pm.score.coeff x y = some sc) (hnn : 0 ≤ sc)
    (hnb : pm.nnf.coeff (x + D) y = some (x + D, y) ∨
      pm.nnf.coeff x (y + D) = some (x, y + D)) :
    ∃ pm', propagate R D pm x y = some pm' ∧ pm'.score.coeff x y = some 0 := by
  obtain ⟨a, b, pm1, pm2, ha, hb, h1, h2, hp⟩ := propagate_updates hR hD wf hxy
  have s1 := update_score h1 hsc
  have s2 := update_score h2 s1
  rw [bestOf_congr R (update_frame h1)] at s2
  refine ⟨pm2, hp, ?_⟩
  rw [s2]
  congr 1
  rcases hnb with hn | hn
  · rw [ha] at hn
    simp only [Option.some.injEq] at hn
    subst hn
    have e : x + D - D = x := by ring
    simp only [e]
    rw [bestOf_self hfit wf.image0 hsame hxy hnn]
    exact bestOf_zero _ hfit wf.image0 wf.image1
  · rw [hb] at hn
    simp only [Option.some.injEq] at hn
    subst hn
    have e : y + D - D = y := by ring
    simp only [e]
    exact bestOf_self hfit wf.image0 hsame hxy (bestOf_nonneg _ hfit wf.image0 wf.image1 hnn)

theorem propagate_spreads_self_match_witness :
    ∃ pm', propagate 3 (-1) exIdentity 3 3 = some pm' ∧ pm'.score.coeff 3 3 = some 0 :=
  propagate_spreads_self_match 3 (-1) exIdentity 3 3 2147483647 (by decide) (by decide)
    (Or.inr rfl) exIdentity_wf rfl (by unfold Interior; decide) (by decide) (by decide)
    (Or.inl (by decide))

theorem uniformImage_wf : uniformImage.WF := by
  unfold Image.WF
  rfl

theorem uniformMatcher_eq :
    construct 3 uniformImage uniformImage (fun _ => (0, 0)) (fun _ => 0) exRng
      = some uniformMatcher := by
  obtain ⟨pm, h⟩ := construct_total 3 uniformImage_wf uniformImage_wf (by decide) (by decide)
    (fun _ => (0, 0)) (fun _ => 0) exRng
  unfold uniformMatcher
  rw [h]
  rfl

theorem uniformMatcher_entry :
    uniformMatcher.nnf.coeff 3 3 = some (4, 3) ∧ uniformMatcher.score.coeff 3 3 = some 0 := by
  unfold uniformMatcher
  set_option maxRecDepth 100000 in decide

/-- C12 (what the code does): two runs of `main` (radius 3, three iterations) on the same
images and the same random stream, whose freshly allocated `nnf` grid reads as `(0, 0)` in
one run and as `(7, 3)` in the other, give different output images: their pixels `(3, 3)`
have the values 186 and 116. -/
theorem runs_differ_with_fresh_memory :
    (main 3 3 cropSource wideTarget (fun _ => (0, 0)) (fun _ => 0) (fun _ => gray 0) stepRng).bind
        (fun dst => (dst.coeff 3 3).map (fun p => (p 0).val)) = some 186 ∧
    (main 3 3 cropSource wideTarget (fun _ => (7, 3)) (fun _ => 0) (fun _ => gray 0) stepRng).bind
        (fun dst => (dst.coeff 3 3).map (fun p => (p 0).val)) = some 116 := by
  constructor
  · set_option maxRecDepth 1000000 in decide!
  · set_option maxRecDepth 1000000 in decide!

/-- C16 (what the code does): the two states built by the constructor from `nnf` grids that
read as `(0, 0)` and as `(7, 3)` agree at the only interior pixel `(3, 3)` (offset `(6, 3)`,
score 1442412) and differ only in the margin; after one call of `iterate` with the same
random stream their interior offsets differ, `(6, 3)` against `(8, 3)`: the forward sweep
reads the margin entry `nnf(2, 3)`. -/
theorem iterate_reads_margin_entries :
    ((construct 3 cropSource wideTarget (fun _ => (0, 0)) (fun _ => 0) stepRng).bind
        (fun s => (s.nnf.coeff 3 3).bind (fun n => (s.score.coeff 3 3).map (fun sc => (n, sc))))
      = some ((6, 3), 1442412)) ∧
    ((construct 3 cropSource wideTarget (fun _ => (7, 3)) (fun _ => 0) stepRng).bind
        (fun s => (s.nnf.coeff 3 3).bind (fun n => (s.score.coeff 3 3).map (fun sc => (n, sc))))
      = some ((6, 3), 1442412)) ∧
    (((construct 3 cropSource wideTarget (fun _ => (0, 0)) (fun _ => 0) stepRng).bind
        (iterate 3)).bind (fun s => s.nnf.coeff 3 3) = some (6, 3)) ∧
    (((construct 3 cropSource wideTarget (fun _ => (7, 3)) (fun _ => 0) stepRng).bind
        (iterate 3)).bind (fun s => s.nnf.coeff 3 3) = some (8, 3)) := by
  refine ⟨?_, ?_, ?_, ?_⟩
  · set_option maxRecDepth 1000000 in decide!
  · set_option maxRecDepth 1000000 in decide!
  · set_option maxRecDepth 1000000 in decide!
  · set_option maxRecDepth 1000000 in decide!

/-- C13 (what the code does): with the uniform image as source and target, the interior
pixel `(3, 3)` is initialised with the offset `(4, 3)` and the score 0, and no number of
iterations makes it store its own coordinate `(3, 3)`. -/
theorem identity_offset_not_reached :
    ¬ ∃ n pm, (construct 3 uniformImage uniformImage (fun _ => (0, 0)) (fun _ => 0) exRng).bind
        (iterateN 3 n) = some pm ∧ pm.nnf.coeff 3 3 = some (3, 3) := by
  rintro ⟨n, pm, h, hn⟩
  rw [uniformMatcher_eq] at h
  have hs := iterateN_steps n h
  have f := (construct_spec uniformMatcher_eq).1
  have e0 : uniformMatcher.image0 = uniformImage := f.image0
  have e1 : uniformMatcher.image1 = uniformImage := f.image1
  have hz := hs.zero_fixed (by decide) (e0 ▸ uniformImage_wf) (e1 ▸ uniformImage_wf)
    uniformMatcher_entry.2
  rw [hz.1, uniformMatcher_entry.1] at hn
  simp only [Option.some.injEq, Prod.mk.injEq] at hn
  omega

/-- C13 (amended): with the same image as source and target (sums fitting in an `int`), at
every interior pixel `(x, y)` the patch matches itself exactly, `distance(x, y, x, y) = 0`;
proposing `(x, y)` against a non-negative score leaves the score 0; and once the score of
`(x, y)` is 0, its offset, whatever exact match it is, and its score stay unchanged through any
number of iterations. -/
theorem self_match_is_exact_and_final (R : Nat) (pm : PatchMatcher N) (x y : Int)
    (hfit : (2 * R + 1) ^ 2 * N * 255 ^ 2 < 2 ^ 31) (wf : pm.WF)
    (hsame : pm.image1 = pm.image0) (hxy : Interior R pm x y) :
    distance R pm x y x y = some 0 ∧
    (∀ sc, pm.score.coeff x y = some sc → 0 ≤ sc →
      ∃ pm', update R pm x y x y = some pm' ∧ pm'.score.coeff x y = some 0) ∧
    (pm.score.coeff x y = some 0 → ∀ n pm', iterateN R n pm = some pm' →
      pm'.nnf.coeff x y = pm.nnf.coeff x y ∧ pm'.score.coeff x y = some 0) := by
  refine ⟨distance_self hfit wf.image0 hsame hxy, ?_, ?_⟩
  · intro sc hsc hnn
    obtain ⟨pm', hu⟩ := update_total x y wf hxy
    refine ⟨pm', hu, ?_⟩
    rw [update_score hu hsc, bestOf_self hfit wf.image0 hsame hxy hnn]
  · intro h0 n pm' h
    exact (iterateN_steps n h).zero_fixed hfit wf.image0 wf.image1 h0

theorem self_match_is_exact_and_final_witness :
    distance 3 exIdentity 3 3 3 3 = some 0 ∧
    (∀ sc, exIdentity.score.coeff 3 3 = some sc → 0 ≤ sc →
      ∃ pm', update 3 exIdentity 3 3 3 3 = some pm' ∧ pm'.score.coeff 3 3 = some 0) ∧
    (exIdentity.score.coeff 3 3 = some 0 → ∀ n pm', iterateN 3 n exIdentity = some pm' →
      pm'.nnf.coeff 3 3 = exIdentity.nnf.coeff 3 3 ∧ pm'.score.coeff 3 3 = some 0) :=
  self_match_is_exact_and_final 3 exIdentity 3 3 (by decide) exIdentity_wf rfl
    (by unfold Interior; decide)

theorem scenarioSource_wf : scenarioSource.WF := by
  unfold Image.WF
  rfl

theorem scenarioTarget_wf : scenarioTarget.WF := by
  unfold Image.WF
  rfl

/-- Reading an image whose buffer is tabulated by `f`. -/
theorem coeff_tabulated {α : Type} (rows cols n : Nat) (f : Nat → α) (hn : n = rows * cols)
    {x y : Int} (hx0 : 0 ≤ x) (hx : x < rows) (hy0 : 0 ≤ y) (hy : y < cols) :
    (Image.mk rows cols ((List.range n).map f)).coeff x y
      = some (f (x + y * (rows : Int)).toNat) := by
  have hlt : (x + y * (rows : Int)).toNat < n := by
    rw [hn]
    exact index_lt hx0 hx hy0 hy
  unfold Image.coeff Image.index
  rw [if_pos ⟨hx0, hx, hy0, hy⟩]
  simp only [List.getElem?_map, List.getElem?_range hlt, Option.map_some']

theorem scenarioSource_pix {x y : Int} (hx0 : 0 ≤ x) (hx : x < 10) (hy0 : 0 ≤ y) (hy : y < 10) :
    scenarioSource.pix x y = gray 128 := by
  unfold Image.pix scenarioSource
  rw [coeff_tabulated 10 10 100 _ rfl hx0 (by exact_mod_cast hx) hy0 (by exact_mod_cast hy)]
  rfl

theorem scenarioTarget_pix {x y : Int} (hx0 : 0 ≤ x) (hx : x < 10) (hy0 : 0 ≤ y) (hy : y < 10)
    (hne : ¬ (x = 5 ∧ y = 5)) : scenarioTarget.pix x y = gray 128 := by
  unfold Image.pix scenarioTarget
  rw [coeff_tabulated 10 10 100 _ rfl hx0 (by exact_mod_cast hx) hy0 (by exact_mod_cast hy)]
  have : ¬ ((x + y * ((10 : Nat) : Int)).toNat = 55) := by
    intro h
    apply hne
    omega
  simp only [Option.getD_some, if_neg this]

/-- In the scenario every source patch is uniformly gray, so it matches exactly every target
patch that does not contain the red pixel. -/
theorem scenario_distance_zero {pm : PatchMatcher 3} (e0 : pm.image0 = scenarioSource)
    (e1 : pm.image1 = scenarioTarget) {x y x0 y0 : Int} (hxy : Interior 1 pm x y)
    (hc : InTarget 1 pm x0 y0) (hfar : ¬ (4 ≤ x0 ∧ x0 ≤ 6 ∧ 4 ≤ y0 ∧ y0 ≤ 6)) :
    distance 1 pm x y x0 y0 = some 0 := by
  unfold Interior at hxy
  unfold InTarget at hc
  rw [e0] at hxy
  rw [e1] at hc
  have r0 : ((scenarioSource.rows : Nat) : Int) = 10 := rfl
  have r1 : ((scenarioSource.cols : Nat) : Int) = 10 := rfl
  have r2 : ((scenarioTarget.rows : Nat) : Int) = 10 := rfl
  have r3 : ((scenarioTarget.cols : Nat) : Int) = 10 := rfl
  rw [r0, r1] at hxy
  rw [r2, r3] at hc
  obtain ⟨a1, a2, a3, a4⟩ := hxy
  obtain ⟨b1, b2, b3, b4⟩ := hc
  have hone : (((1 : Nat) : Int)) = 1 := rfl
  rw [hone] at a1 a2 a3 a4 b1 b2 b3 b4
  apply distance_eq_zero_of_same_patch (by decide) (e0 ▸ scenarioSource_wf)
    (e1 ▸ scenarioTarget_wf)
  · unfold WindowsInside
    rw [e0, e1, r0, r1, r2, r3, hone]
    omega
  · intro dx dy h1 h2 h3 h4
    rw [hone] at h1 h2 h3 h4
    rw [e0, e1, scenarioSource_pix (by omega) (by omega) (by omega) (by omega),
      scenarioTarget_pix (by omega) (by omega) (by omega) (by omega) (by omega)]

theorem scenarioMatcher_eq :
    construct 1 scenarioSource scenarioTarget (fun _ => (0, 0)) (fun _ => 0) exRng
      = some scenarioMatcher := by
  obtain ⟨pm, h⟩ := construct_total 1 scenarioSource_wf scenarioTarget_wf (by decide) (by decide)
    (fun _ => (0, 0)) (fun _ => 0) exRng
  unfold scenarioMatcher
  rw [h]
  rfl

theorem scenarioMatcher_entries :
    (scenarioMatcher.nnf.coeff 5 5, scenarioMatcher.score.coeff 5 5,
        scenarioMatcher.nnf.coeff 2 2, scenarioMatcher.score.coeff 2 2)
      = (some (2, 5), some 0, some (8, 3), some 0) := by
  unfold scenarioMatcher
  set_option maxRecDepth 1000000 in decide!

/-- C14 (what the code does): in the scenario (radius 1, three iterations), the candidate
`(1, 1)` has distance 0 for the source pixel `(5, 5)`, so the lowest achievable score of a
pixel whose patch overlaps `(5, 5)` is 0, not a non-zero value; and with the stream `exRng`
the run ends with score 0 at `(5, 5)` and with the offset `(8, 3)`, not `(2, 2)`, at the pixel
`(2, 2)`, whose patch does not overlap `(5, 5)`. -/
theorem scenario_ends_elsewhere :
    distance 1 scenarioMatcher 5 5 1 1 = some 0 ∧
    ∃ pm, (construct 1 scenarioSource scenarioTarget (fun _ => (0, 0)) (fun _ => 0) exRng).bind
        (iterateN 1 3) = some pm ∧
      pm.score.coeff 5 5 = some 0 ∧ pm.nnf.coeff 2 2 = some (8, 3) ∧
      pm.score.coeff 2 2 = some 0 := by
  have f := (construct_spec scenarioMatcher_eq).1
  have e0 : scenarioMatcher.image0 = scenarioSource := f.image0
  have e1 : scenarioMatcher.image1 = scenarioTarget := f.image1
  have hent := scenarioMatcher_entries
  simp only [Prod.mk.injEq] at hent
  obtain ⟨_, s55, n22, s22⟩ := hent
  constructor
  · apply scenario_distance_zero e0 e1
    · unfold Interior; rw [e0]; decide
    · unfold InTarget; rw [e1]; decide
    · omega
  · have hr : Reachable 1 scenarioMatcher :=
      Reachable.construct scenarioSource_wf scenarioTarget_wf scenarioMatcher_eq
    obtain ⟨pm, hpm, _⟩ := iterateN_reachable (le_refl 1) hr 3
    have hs := iterateN_steps 3 hpm
    have z55 := hs.zero_fixed (by decide) (e0 ▸ scenarioSource_wf) (e1 ▸ scenarioTarget_wf) s55
    have z22 := hs.zero_fixed (by decide) (e0 ▸ scenarioSource_wf) (e1 ▸ scenarioTarget_wf) s22
    have hn : pm.nnf.coeff 2 2 = some (8, 3) := by
      rw [z22.1]
      exact n22
    have hbind : (construct 1 scenarioSource scenarioTarget (fun _ => (0, 0)) (fun _ => 0)
        exRng).bind (iterateN 1 3) = some pm := by
      rw [scenarioMatcher_eq, Option.some_bind]
      exact hpm
    exact ⟨pm, hbind, z55.2, hn, z22.2⟩

/-- C14 (amended): in the scenario, for every random stream, every content of the fresh grids
and every number of iterations, the run returns; every interior source pixel stores a
non-negative score that is the distance of its stored offset; every candidate of the target
interior whose 3 × 3 patch does not contain `(5, 5)` has distance 0 for every interior source
pixel (so the lowest achievable score is 0 for all of them, and `(x, y)` itself is an exact
match for the pixels whose patch does not overlap `(5, 5)`); and a pixel whose score is 0
keeps its offset and its score through all further iterations. -/
theorem scenario_scores (junkNnf : Nat → Int × Int) (junkScore : Nat → Int) (g : Rng)
    (n : Nat) :
    ∃ pm, (construct 1 scenarioSource scenarioTarget junkNnf junkScore g).bind (iterateN 1 n)
        = some pm ∧
      ∀ x y, Interior 1 pm x y →
        (∃ off sc, pm.nnf.coeff x y = some off ∧ pm.score.coeff x y = some sc ∧
          distance 1 pm x y off.1 off.2 = some sc ∧ 0 ≤ sc) ∧
        (∀ x0 y0, InTarget 1 pm x0 y0 → ¬ (4 ≤ x0 ∧ x0 ≤ 6 ∧ 4 ≤ y0 ∧ y0 ≤ 6) →
          distance 1 pm x y x0 y0 = some 0) ∧
        (pm.score.coeff x y = some 0 → ∀ m pm', iterateN 1 m pm = some pm' →
          pm'.nnf.coeff x y = pm.nnf.coeff x y ∧ pm'.score.coeff x y = some 0) := by
  obtain ⟨pm0, h0⟩ := construct_total 1 scenarioSource_wf scenarioTarget_wf (by decide)
    (by decide) junkNnf junkScore g
  have hr0 : Reachable 1 pm0 := Reachable.construct scenarioSource_wf scenarioTarget_wf h0
  obtain ⟨pm, hpm, hr⟩ := iterateN_reachable (le_refl 1) hr0 n
  have f := (construct_spec h0).1.then (iterateN_steps n hpm).frame
  have e0 : pm.image0 = scenarioSource := f.image0
  have e1 : pm.image1 = scenarioTarget := f.image1
  have wf0 : pm.image0.WF := e0 ▸ scenarioSource_wf
  have wf1 : pm.image1.WF := e1 ▸ scenarioTarget_wf
  refine ⟨pm, by rw [h0, Option.some_bind]; exact hpm, ?_⟩
  intro x y hxy
  refine ⟨?_, ?_, ?_⟩
  · obtain ⟨off, sc, h1, h2, h3⟩ := (hr.invariants.2 x y hxy).1
    exact ⟨off, sc, h1, h2, h3, distance_nonneg (by decide) wf0 wf1 h3⟩
  · intro x0 y0 hc hfar
    exact scenario_distance_zero e0 e1 hxy hc hfar
  · intro hz m pm' hm
    exact (iterateN_steps m hm).zero_fixed (by decide) wf0 wf1 hz

end PatchMatch
